import Mathlib

/-!
Verification of the honey-utils core clusters.

Shallow embedding of the two algorithmic clusters of the repository:

* the bounded motion model (`resolveBoundedDelta`, `applyInertiaStep`
  from `src/geometry`), modelled over an ordered field (rationals for
  the pure boundary arithmetic, reals for the inertia step because the
  source uses `Math.exp`), and

* the flattened tree model (`flattenTree` from `src/tree/flatten-tree.ts`,
  `searchTree` and its helpers `insertNestedItems` / `insertParentNodes`,
  and `splitStringIntoWords` from `src/string.ts`), modelled over lists.

JavaScript strings are modelled as `List Char`; `String.prototype.toLowerCase`
is modelled by ASCII case folding (`lowerChar`), which covers every input the
claims and counterexamples use.  A JS function that can throw or recurse
forever is modelled as an `Option`-returning function (`none` = exception or
non-termination), with an explicit fuel for the recursions that the source
performs over parent/child links rather than over the call argument.
-/

namespace HoneyUtils

/-- Shallow embedding of `resolveBoundedDelta`
(`src/geometry/resolve-bounded-delta.ts`).  The branch structure mirrors the
source exactly: `delta == 0` returns `null`; a negative delta is blocked at or
below `min` and otherwise lands on `max(value + delta, min)`; a positive delta
is blocked at or above `max` and otherwise lands on `min(value + delta, max)`;
the final `return null` of the source is the last `else` (dead for an ordered
field, reachable in JS only for `NaN`). -/
def resolveBoundedDelta {α : Type} [LinearOrderedField α]
    (delta value min max : α) : Option α :=
  if delta = 0 then none
  else
    let candidate := value + delta
    if delta < 0 then (if value ≤ min then none else some (Max.max candidate min))
    else if 0 < delta then (if max ≤ value then none else some (Min.min candidate max))
    else none

/-- Velocity update of `applyInertiaStep`
(`src/geometry/apply-inertia-step.ts`): exponential friction decay
`velocity * exp(-friction * deltaTime)` followed by the optional EMA blend
`velocity * (1 - emaAlpha) + decayed * emaAlpha` when `emaAlpha > 0`. -/
noncomputable def nextVelocityPxMs
    (velocityPxMs deltaTimeMs friction emaAlpha : ℝ) : ℝ :=
  let decay := Real.exp (-friction * deltaTimeMs)
  let pureVelocityPxMs := velocityPxMs * decay
  if 0 < emaAlpha then
    velocityPxMs * (1 - emaAlpha) + pureVelocityPxMs * emaAlpha
  else pureVelocityPxMs

/-- Shallow embedding of `applyInertiaStep`
(`src/geometry/apply-inertia-step.ts`).  `Math.exp` is modelled by
`Real.exp`; the source's early `return null`s become `none`; the default
values of `friction`, `minVelocityPxMs`, `emaAlpha` are supplied by the
caller (the claims quantify over configurations). -/
noncomputable def applyInertiaStep
    (value min max velocityPxMs deltaTimeMs friction minVelocityPxMs
      emaAlpha : ℝ) : Option (ℝ × ℝ) :=
  if |velocityPxMs| < minVelocityPxMs then none
  else
    match resolveBoundedDelta (velocityPxMs * deltaTimeMs) value min max with
    | none => none
    | some nextValue =>
      let nextV := nextVelocityPxMs velocityPxMs deltaTimeMs friction emaAlpha
      if |nextV| < minVelocityPxMs then none
      else some (nextValue, nextV)

/-- The caller-driven animation loop of the spec: thread the output state of
`applyInertiaStep` back in as the next input, `n` times, with a constant
configuration.  `none` once a step returns BLOCKED. -/
noncomputable def inertiaIter
    (min max deltaTimeMs friction minVelocityPxMs emaAlpha : ℝ)
    (s : ℝ × ℝ) : Nat → Option (ℝ × ℝ)
  | 0 => some s
  | n + 1 =>
    match inertiaIter min max deltaTimeMs friction minVelocityPxMs emaAlpha s n with
    | none => none
    | some t =>
      applyInertiaStep t.1 min max t.2 deltaTimeMs friction minVelocityPxMs emaAlpha

/-- Model of `String.prototype.toLowerCase` on a single character, restricted
to ASCII case folding (the only folding the claims and their inputs
exercise): the 26 upper-case letters map to their lower-case counterparts and
every other character is unchanged. -/
def lowerChar : Char → Char
  | 'A' => 'a' | 'B' => 'b' | 'C' => 'c' | 'D' => 'd' | 'E' => 'e'
  | 'F' => 'f' | 'G' => 'g' | 'H' => 'h' | 'I' => 'i' | 'J' => 'j'
  | 'K' => 'k' | 'L' => 'l' | 'M' => 'm' | 'N' => 'n' | 'O' => 'o'
  | 'P' => 'p' | 'Q' => 'q' | 'R' => 'r' | 'S' => 's' | 'T' => 't'
  | 'U' => 'u' | 'V' => 'v' | 'W' => 'w' | 'X' => 'x' | 'Y' => 'y'
  | 'Z' => 'z'
  | c => c

/-- `s.toLowerCase()` on a JS string modelled as a character list. -/
def toLowerStr (s : List Char) : List Char := s.map lowerChar

/-- `input.split(' ')` on a character list: the chunks between occurrences of
the space character, in order, empty chunks included (as in JS). -/
def splitOnSpace : List Char → List (List Char)
  | [] => [[]]
  | c :: rest =>
    if c = ' ' then [] :: splitOnSpace rest
    else (c :: (splitOnSpace rest).headI) :: (splitOnSpace rest).tail

/-- Shallow embedding of `splitStringIntoWords` (`src/string.ts`):
`input.split(' ').filter(Boolean)` — split on the space character, drop the
empty chunks. -/
def splitStringIntoWords (input : List Char) : List (List Char) :=
  (splitOnSpace input).filter (fun w => !w.isEmpty)

/-- `word.startsWith(searchWord)` on character lists. -/
def startsWithChars : List Char → List Char → Bool
  | _, [] => true
  | [], _ :: _ => false
  | c :: cs, d :: ds => c == d && startsWithChars cs ds

/-- The match predicate of `searchTree`: every search word is a prefix of at
least one node-value word
(`searchWords.every(sw => nodeValueWords.some(w => w.startsWith(sw)))`). -/
def isNodeMatched (searchWords nodeValueWords : List (List Char)) : Bool :=
  searchWords.all fun sw => nodeValueWords.any fun w => startsWithChars w sw

/-- Spec-side tokenizer, written to the spec's words for comparison with the
code's `splitStringIntoWords`: split on *whitespace* (not just the space
character). -/
def specSplitOnWhitespace : List Char → List (List Char)
  | [] => [[]]
  | c :: rest =>
    if c.isWhitespace then [] :: specSplitOnWhitespace rest
    else
      (c :: (specSplitOnWhitespace rest).headI) ::
        (specSplitOnWhitespace rest).tail

/-- Spec-side word list: split on whitespace, discard empty tokens. -/
def specWhitespaceWords (s : List Char) : List (List Char) :=
  (specSplitOnWhitespace s).filter (fun w => !w.isEmpty)

/-- The match predicate exactly as C4 words it: lowercase, tokenize query and
value by splitting on whitespace, AND over query words of OR over value
words of the prefix test. -/
def specMatched (q v : List Char) : Bool :=
  (specWhitespaceWords (toLowerStr q)).all fun sw =>
    (specWhitespaceWords (toLowerStr v)).any fun w => startsWithChars w sw

/-- A hierarchical node (`OriginItem` of `flattenTree`): an identifier field
(`nodeIdKey`), one representative payload field (`value`, the searchable
string field), and the `childrenKey` field, which either holds a nested
array (`arr`) or is absent / `null` / not an array (`noArr`). -/
inductive HTree : Type where
  | noArr (id : Nat) (value : List Char)
  | arr (id : Nat) (value : List Char) (children : List HTree)

def HTree.idOf : HTree → Nat
  | .noArr i _ => i
  | .arr i _ _ => i

def HTree.valueOf : HTree → List Char
  | .noArr _ v => v
  | .arr _ v _ => v

/-- The children array of a node, empty when the children field is not an
array. -/
def HTree.childrenOf : HTree → List HTree
  | .noArr _ _ => []
  | .arr _ _ cs => cs

/-- `childCount` as `flattenTree` computes it: the length of the children
array when present-and-array, else `0`. -/
def HTree.childCountOf : HTree → Nat
  | .noArr _ _ => 0
  | .arr _ _ cs => cs.length

/-- A flat node (`HoneyTreeFlatNode`): the original fields minus the children
field, plus `parentId`, `depthLevel` and `childCount`. -/
structure FNode where
  id : Nat
  value : List Char
  parentId : Option Nat
  depthLevel : Nat
  childCount : Nat
deriving DecidableEq

/-- The flat node `flattenTree` pushes for one source node. -/
def mkFlat (t : HTree) (p : Option Nat) (d : Nat) : FNode :=
  ⟨t.idOf, t.valueOf, p, d, t.childCountOf⟩

mutual

/-- Number of nodes of one tree. -/
def sizeT : HTree → Nat
  | .noArr _ _ => 1
  | .arr _ _ cs => 1 + sizeL cs

/-- Number of nodes of a forest. -/
def sizeL : List HTree → Nat
  | [] => 0
  | t :: rest => sizeT t + sizeL rest

end

/-- Shallow embedding of the recursive body of `flattenTree`
(`src/tree/flatten-tree.ts`) with its mutable accumulator made explicit:
for each item push the flat node, then (when the children field is an
array) recurse into the children with the item's id as `parentId` and
`depthLevel + 1`, then continue with the remaining siblings. -/
def flattenList : List HTree → List FNode → Option Nat → Nat → List FNode
  | [], acc, _, _ => acc
  | t :: rest, acc, p, d =>
    let acc1 := acc ++ [mkFlat t p d]
    let acc2 :=
      match t with
      | .noArr _ _ => acc1
      | .arr i _ cs => flattenList cs acc1 (some i) (d + 1)
    flattenList rest acc2 p d
termination_by l _ _ _ => sizeL l
decreasing_by
  · simp only [sizeL, sizeT]
    omega
  · have h1 : 1 ≤ sizeT t := by
      cases t <;> simp [sizeT]
    simp only [sizeL]
    omega

/-- Top-level `flattenTree`: `items` absent (`undefined`) yields the (empty)
accumulator; otherwise the recursion starts with no parent at depth 0. -/
def flattenTree : Option (List HTree) → List FNode
  | none => []
  | some items => flattenList items [] none 0

/-- Accumulator-free preorder flattening: the block of a node is its flat
node followed by the flattened children, followed by the flattened
siblings. -/
def flatP : List HTree → Option Nat → Nat → List FNode
  | [], _, _ => []
  | t :: rest, p, d =>
    mkFlat t p d ::
      (flatP t.childrenOf (some t.idOf) (d + 1) ++ flatP rest p d)
termination_by ts _ _ => sizeL ts
decreasing_by
  · have h1 : sizeL t.childrenOf < sizeT t := by
      cases t <;> simp [sizeT, HTree.childrenOf, sizeL]
    simp only [sizeL]
    omega
  · have h1 : 1 ≤ sizeT t := by
      cases t <;> simp [sizeT]
    simp only [sizeL]
    omega

/-- Navigate to the node addressed by a path of child indices: `(i, is)`
selects the `i`-th root and then follows `is` through the children
arrays. -/
def nodeAt : List HTree → Nat → List Nat → Option HTree
  | ts, i, [] => ts.get? i
  | ts, i, j :: is =>
    match ts.get? i with
    | none => none
    | some t => nodeAt t.childrenOf j is

/-- Position of the node addressed by a path inside the preorder flat
list. -/
def flatIdx : List HTree → Nat → List Nat → Option Nat
  | ts, i, [] => if i < ts.length then some (sizeL (ts.take i)) else none
  | ts, i, j :: is =>
    match ts.get? i with
    | none => none
    | some t => (flatIdx t.childrenOf j is).map (fun k => sizeL (ts.take i) + 1 + k)

/-- The `parentId` the flat node of the path's target must carry when the
enclosing call was made with parent `p`: `p` itself at the top of the call,
else the id of the node one path step up. -/
def parentIdWithin (ts : List HTree) (i : Nat) (is : List Nat)
    (p : Option Nat) : Option Nat :=
  if is.isEmpty then p else (nodeAt ts i is.dropLast).map HTree.idOf

/-- The `nodeIdToIndexMap` of `searchTree`: a JS object built by
`reduce`, mapping a node id to its index, later writes overwriting earlier
ones — i.e. the *last* index whose node carries the id. -/
def idLookup (pid : Nat) : List FNode → Nat → Option Nat
  | [], _ => none
  | n :: rest, k =>
    match idLookup pid rest (k + 1) with
    | some j => some j
    | none => if n.id = pid then some k else none

def nodeIdToIndexMap (ft : List FNode) (pid : Nat) : Option Nat :=
  idLookup pid ft 0

/-- The `shouldInsertParentNode` test of `insertParentNodes`: insert when the
accumulated result is empty (`prevNodeParentId` is `null`) or the last
inserted node's `parentId` differs from the target's `parentId`. -/
def shouldInsertParent (acc1 : List FNode) (targetParent : Option Nat) : Bool :=
  match acc1.getLast? with
  | none => true
  | some lastN => lastN.parentId != targetParent

/-- Shallow embedding of `insertParentNodes` (the upward ancestor walk of
`searchTree`).  `none` models a thrown exception (the parent lookup finding
nothing, so that `parentNode.parentId` throws) or a walk that does not
terminate (fuel exhausted; the source recursion is over parent links, not
over a structurally shrinking argument).  The recursive call happens before
the insertion test, exactly as in the source, so ancestors closest to the
root are appended first. -/
def insertParentNodes (ft : List FNode) : Nat → FNode → List FNode → Option (List FNode)
  | 0, _, _ => none
  | fuel + 1, target, acc =>
    match target.parentId with
    | none => none
    | some pid =>
      match nodeIdToIndexMap ft pid with
      | none => none
      | some parentNodeIndex =>
        match ft.get? parentNodeIndex with
        | none => none
        | some parentNode =>
          let insert := fun (acc1 : List FNode) =>
            if shouldInsertParent acc1 target.parentId
            then acc1 ++ [parentNode] else acc1
          match parentNode.parentId with
          | some _ =>
            match insertParentNodes ft fuel parentNode acc with
            | none => none
            | some acc1 => some (insert acc1)
          | none => some (insert acc)

/-- The `flatTree.forEach` scan inside `insertNestedItems`: for every node of
the full flat list whose `parentId` is the target's id, push it and recurse
into it (`stepChild`). -/
def nestedScan (stepChild : FNode → List FNode → Option (List FNode))
    (tid : Nat) : List FNode → List FNode → Option (List FNode)
  | [], acc => some acc
  | n :: rest, acc =>
    if n.parentId = some tid then
      match stepChild n (acc ++ [n]) with
      | none => none
      | some acc' => nestedScan stepChild tid rest acc'
    else nestedScan stepChild tid rest acc

/-- Shallow embedding of `insertNestedItems` (the downward subtree expansion
of `searchTree`): nothing to do when `childCount` is zero, else scan the
whole flat list for direct children, pushing each and recursing.  Fuel
models the source recursion over parent links (`none` = non-termination on
malformed input). -/
def insertNestedItems (ft : List FNode) : Nat → FNode → List FNode → Option (List FNode)
  | 0, _, _ => none
  | fuel + 1, target, acc =>
    if target.childCount = 0 then some acc
    else nestedScan (insertNestedItems ft fuel) target.id ft acc

/-- One iteration of the `reduce` in `searchTree`: skip a falsy value, skip a
node already present (by id), and for a matched node run the root-subtree
expansion or the ancestor walk followed by pushing the node itself. -/
def stepNode (ft : List FNode) (searchWords : List (List Char))
    (node : FNode) (acc : List FNode) : Option (List FNode) :=
  if node.value.isEmpty then some acc
  else if acc.any (fun m => m.id == node.id) then some acc
  else
    let nodeValueWords := splitStringIntoWords (toLowerStr node.value)
    if isNodeMatched searchWords nodeValueWords then
      match node.parentId with
      | none => insertNestedItems ft (ft.length + 1) node (acc ++ [node])
      | some _ =>
        match insertParentNodes ft (ft.length + 1) node acc with
        | none => none
        | some acc1 => some (acc1 ++ [node])
    else some acc

/-- The `reduce` of `searchTree` over the flat list. -/
def searchGo (ft : List FNode) (searchWords : List (List Char)) :
    List FNode → List FNode → Option (List FNode)
  | [], acc => some acc
  | n :: rest, acc =>
    match stepNode ft searchWords n acc with
    | none => none
    | some acc' => searchGo ft searchWords rest acc'

/-- Shallow embedding of `searchTree` (context-aware search over a flattened
tree): lowercase and tokenize the query; an empty word list returns the
input unchanged; otherwise reduce over the flat list starting from an empty
result.  `none` models a thrown exception. -/
def searchTree (ft : List FNode) (searchQuery : List Char) :
    Option (List FNode) :=
  let searchWords := splitStringIntoWords (toLowerStr searchQuery)
  if searchWords.isEmpty then some ft
  else searchGo ft searchWords ft []

mutual

/-- The ids of every node of one tree, preorder. -/
def idsT : HTree → List Nat
  | .noArr i _ => [i]
  | .arr i _ cs => i :: idsL cs

/-- The ids of every node of a forest, preorder. -/
def idsL : List HTree → List Nat
  | [] => []
  | t :: rest => idsT t ++ idsL rest

end

/-- `OccIn ts q e s p d`: the node `s` occurs somewhere in the forest `ts`
when the flattening call was made with parent `p₀ = q` and depth `e`, and
`s`'s own flat node carries parent `p` and depth `d`. -/
inductive OccIn : List HTree → Option Nat → Nat → HTree → Option Nat → Nat → Prop where
  | here {ts : List HTree} {q : Option Nat} {e : Nat} {t : HTree} :
      t ∈ ts → OccIn ts q e t q e
  | inside {ts : List HTree} {q : Option Nat} {e : Nat} {t s : HTree}
      {p : Option Nat} {d : Nat} :
      t ∈ ts → OccIn t.childrenOf (some t.idOf) (e + 1) s p d →
      OccIn ts q e s p d

/-- Decidable form of the flat-node invariant's parent clause: every
non-root node's `parentId` is the id of some strictly earlier node of the
flat list. -/
def parentEarlierB (ft : List FNode) : Bool :=
  (List.range ft.length).all fun j =>
    match ft.get? j with
    | none => true
    | some n =>
      match n.parentId with
      | none => true
      | some pid => (ft.take j).any fun m => m.id == pid

/-- Propositional form of the parent clause of the flat-node invariant. -/
def PE1 (ft : List FNode) : Prop :=
  ∀ j n pid, ft.get? j = some n → n.parentId = some pid →
    ∃ i m, i < j ∧ ft.get? i = some m ∧ m.id = pid

/-- The effect of `nestedScan` on the sublist of hits: push each hit and
recurse into it. -/
def processHits (stepChild : FNode → List FNode → Option (List FNode)) :
    List FNode → List FNode → Option (List FNode)
  | [], acc => some acc
  | n :: rest, acc =>
    match stepChild n (acc ++ [n]) with
    | none => none
    | some acc' => processHits stepChild rest acc'

end HoneyUtils

namespace HoneyUtils

theorem resolveBoundedDelta_eq_some_iff {α : Type} [LinearOrderedField α]
    {delta value min max : α} {r : α} :
    resolveBoundedDelta delta value min max = some r ↔
      (delta < 0 ∧ ¬value ≤ min ∧ r = Max.max (value + delta) min) ∨
      (0 < delta ∧ ¬max ≤ value ∧ r = Min.min (value + delta) max) := by
  unfold resolveBoundedDelta
  rcases lt_trichotomy delta 0 with h | h | h
  · by_cases hb : value ≤ min <;>
      simp [h, h.ne, hb, not_lt.mpr h.le, eq_comm]
  · simp [h]
  · by_cases hb : max ≤ value <;>
      simp [h, h.ne', hb, not_lt.mpr h.le, eq_comm]

theorem applyInertiaStep_eq_some_iff
    {value min max velocityPxMs deltaTimeMs friction minVelocityPxMs
      emaAlpha : ℝ} {p : ℝ × ℝ} :
    applyInertiaStep value min max velocityPxMs deltaTimeMs friction
        minVelocityPxMs emaAlpha = some p ↔
      ¬|velocityPxMs| < minVelocityPxMs ∧
      resolveBoundedDelta (velocityPxMs * deltaTimeMs) value min max = some p.1 ∧
      p.2 = nextVelocityPxMs velocityPxMs deltaTimeMs friction emaAlpha ∧
      ¬|nextVelocityPxMs velocityPxMs deltaTimeMs friction emaAlpha|
          < minVelocityPxMs := by
  unfold applyInertiaStep
  by_cases h1 : |velocityPxMs| < minVelocityPxMs
  · simp [h1]
  · simp only [h1, if_false, not_false_iff, true_and]
    rcases hr : resolveBoundedDelta (velocityPxMs * deltaTimeMs) value min max with
      _ | nextValue
    · simp
    · by_cases h2 : |nextVelocityPxMs velocityPxMs deltaTimeMs friction emaAlpha|
          < minVelocityPxMs
      · simp [h2]
      · obtain ⟨a, b⟩ := p
        simp only [h2, if_false, not_false_iff, and_true, Option.some.injEq,
          Prod.mk.injEq]
        constructor
        · rintro ⟨h, h'⟩
          exact ⟨by rw [h], h'.symm⟩
        · rintro ⟨h, h'⟩
          exact ⟨h, h'.symm⟩

theorem applyInertiaStep_eq_none_iff
    {value min max velocityPxMs deltaTimeMs friction minVelocityPxMs
      emaAlpha : ℝ} :
    applyInertiaStep value min max velocityPxMs deltaTimeMs friction
        minVelocityPxMs emaAlpha = none ↔
      |velocityPxMs| < minVelocityPxMs ∨
      resolveBoundedDelta (velocityPxMs * deltaTimeMs) value min max = none ∨
      |nextVelocityPxMs velocityPxMs deltaTimeMs friction emaAlpha|
          < minVelocityPxMs := by
  unfold applyInertiaStep
  by_cases h1 : |velocityPxMs| < minVelocityPxMs
  · simp [h1]
  · simp only [h1, if_false, false_or]
    rcases hr : resolveBoundedDelta (velocityPxMs * deltaTimeMs) value min max with
      _ | nextValue
    · simp
    · by_cases h2 : |nextVelocityPxMs velocityPxMs deltaTimeMs friction emaAlpha|
          < minVelocityPxMs
      · simp [h2]
      · simp [h2]

/-- C3: `applyInertiaStep` returns BLOCKED (`none`) exactly when
`|velocity| < minVelocity` on entry, or `resolveBoundedDelta` on
`velocity * deltaTime` is BLOCKED, or the post-decay / post-smoothing
velocity is below `minVelocity`; in every other case it returns the pair of
the resolved value and that next velocity.  The embedding is a total
function into `Option`, so no numeric input raises an exception. -/
theorem C3_applyInertiaStep_blocked_iff
    (value mn mx velocity deltaTime friction minVelocity emaAlpha : ℝ) :
    (applyInertiaStep value mn mx velocity deltaTime friction minVelocity
        emaAlpha = none ↔
      |velocity| < minVelocity ∨
      resolveBoundedDelta (velocity * deltaTime) value mn mx = none ∨
      |nextVelocityPxMs velocity deltaTime friction emaAlpha| < minVelocity) ∧
    (∀ x, resolveBoundedDelta (velocity * deltaTime) value mn mx = some x →
      ¬|velocity| < minVelocity →
      ¬|nextVelocityPxMs velocity deltaTime friction emaAlpha| < minVelocity →
      applyInertiaStep value mn mx velocity deltaTime friction minVelocity
        emaAlpha =
        some (x, nextVelocityPxMs velocity deltaTime friction emaAlpha)) := by
  refine ⟨applyInertiaStep_eq_none_iff, fun x hx h1 h2 => ?_⟩
  exact applyInertiaStep_eq_some_iff.mpr ⟨h1, hx, rfl, h2⟩

theorem nextVelocityPxMs_zero_alpha (v dt f : ℝ) :
    nextVelocityPxMs v dt f 0 = v * Real.exp (-f * dt) := by
  simp [nextVelocityPxMs]

theorem inertiaIter_velocity
    {mn mx dt f minV : ℝ} :
    ∀ {n : Nat} {s t : ℝ × ℝ},
      inertiaIter mn mx dt f minV 0 s n = some t →
      t.2 = s.2 * Real.exp (-f * dt) ^ n := by
  intro n
  induction n with
  | zero =>
    intro s t h
    simp only [inertiaIter] at h
    cases h
    simp
  | succ n ih =>
    intro s t h
    simp only [inertiaIter] at h
    rcases hu : inertiaIter mn mx dt f minV 0 s n with _ | u
    · rw [hu] at h; cases h
    · rw [hu] at h
      have h2 := (applyInertiaStep_eq_some_iff.mp h).2.2.1
      rw [h2, nextVelocityPxMs_zero_alpha, ih hu, pow_succ]
      ring

/-- C7: with positive friction, positive elapsed time, positive minimum
velocity and EMA smoothing disabled (`emaAlpha = 0`), every non-BLOCKED step
of `applyInertiaStep` strictly decreases `|velocity|`, and feeding each
output back as the next input eventually returns BLOCKED. -/
theorem C7_inertia_monotonic_decay
    (mn mx dt f minV : ℝ) (hf : 0 < f) (hdt : 0 < dt) (hminV : 0 < minV) :
    (∀ x v x' v',
      applyInertiaStep x mn mx v dt f minV 0 = some (x', v') → |v'| < |v|) ∧
    (∀ s : ℝ × ℝ, ∃ n, inertiaIter mn mx dt f minV 0 s n = none) := by
  have hd0 : 0 < Real.exp (-f * dt) := Real.exp_pos _
  have hd1 : Real.exp (-f * dt) < 1 := by
    rw [Real.exp_lt_one_iff]
    nlinarith
  constructor
  · intro x v x' v' h
    obtain ⟨h1, hrbd, hv', h2⟩ := applyInertiaStep_eq_some_iff.mp h
    have hvne : v ≠ 0 := by
      rcases resolveBoundedDelta_eq_some_iff.mp hrbd with ⟨hneg, _⟩ | ⟨hpos, _⟩
      · intro h0; rw [h0] at hneg; simp at hneg
      · intro h0; rw [h0] at hpos; simp at hpos
    have : v' = v * Real.exp (-f * dt) := by
      simpa [nextVelocityPxMs_zero_alpha] using hv'
    rw [this, abs_mul, abs_of_pos hd0]
    exact mul_lt_of_lt_one_right (abs_pos.mpr hvne) hd1
  · intro s
    obtain ⟨n, hn⟩ :=
      exists_pow_lt_of_lt_one (x := minV / (|s.2| + 1))
        (by positivity) hd1
    have habs : |s.2| * Real.exp (-f * dt) ^ n < minV := by
      have h0 : (0 : ℝ) ≤ Real.exp (-f * dt) ^ n := by positivity
      have h1 : (0 : ℝ) < |s.2| + 1 := by positivity
      have hmul : (|s.2| + 1) * (minV / (|s.2| + 1)) = minV := by
        field_simp
      have hlt := mul_lt_mul_of_pos_left hn h1
      rw [hmul] at hlt
      nlinarith [abs_nonneg s.2]
    refine ⟨n + 1, ?_⟩
    simp only [inertiaIter]
    rcases ht : inertiaIter mn mx dt f minV 0 s n with _ | t
    · rfl
    · have hv := inertiaIter_velocity ht
      have : |t.2| < minV := by
        rw [hv, abs_mul, abs_pow, abs_of_pos hd0]
        exact habs
      exact applyInertiaStep_eq_none_iff.mpr (Or.inl this)

/-- Witness for C7: friction `1`, elapsed time `1`, minimum velocity `1`,
bounds `[-100, 100]`. -/
theorem C7_witness :
    (∀ x v x' v',
      applyInertiaStep x (-100) 100 v 1 1 1 0 = some (x', v') → |v'| < |v|) ∧
    (∀ s : ℝ × ℝ, ∃ n, inertiaIter (-100) 100 1 1 1 0 s n = none) :=
  C7_inertia_monotonic_decay (-100) 100 1 1 1 (by norm_num) (by norm_num)
    (by norm_num)

theorem exp_c8_half : Real.exp (-(Real.log 2 / 8) * 8) = 1 / 2 := by
  have h : -(Real.log 2 / 8) * 8 = -Real.log 2 := by ring
  rw [h, Real.exp_neg, Real.exp_log (by norm_num : (0 : ℝ) < 2)]
  norm_num

theorem exp_c8_quarter : Real.exp (-(Real.log 2 / 8) * 16) = 1 / 4 := by
  have h : -(Real.log 2 / 8) * 16 = -Real.log 2 + -Real.log 2 := by ring
  rw [h, Real.exp_add, Real.exp_neg, Real.exp_log (by norm_num : (0 : ℝ) < 2)]
  norm_num

theorem c8_step_first :
    applyInertiaStep 0 (-1000) 1000 1 8 (Real.log 2 / 8) (1 / 100) (1 / 2) =
      some (8, 3 / 4) := by
  have hnv : nextVelocityPxMs 1 8 (Real.log 2 / 8) (1 / 2) = 3 / 4 := by
    simp only [nextVelocityPxMs]
    rw [if_pos (by norm_num : (0 : ℝ) < 1 / 2), exp_c8_half]
    norm_num
  refine applyInertiaStep_eq_some_iff.mpr ⟨?_, ?_, ?_, ?_⟩
  · rw [abs_one]; norm_num
  · exact resolveBoundedDelta_eq_some_iff.mpr
      (Or.inr ⟨by norm_num, by norm_num, by norm_num [min_def]⟩)
  · exact hnv.symm
  · rw [hnv]; rw [abs_of_pos (by norm_num : (0 : ℝ) < 3 / 4)]; norm_num

theorem c8_step_second :
    applyInertiaStep 8 (-1000) 1000 (3 / 4) 8 (Real.log 2 / 8) (1 / 100)
      (1 / 2) = some (14, 9 / 16) := by
  have hnv : nextVelocityPxMs (3 / 4) 8 (Real.log 2 / 8) (1 / 2) = 9 / 16 := by
    simp only [nextVelocityPxMs]
    rw [if_pos (by norm_num : (0 : ℝ) < 1 / 2), exp_c8_half]
    norm_num
  refine applyInertiaStep_eq_some_iff.mpr ⟨?_, ?_, ?_, ?_⟩
  · rw [abs_of_pos (by norm_num : (0 : ℝ) < 3 / 4)]; norm_num
  · exact resolveBoundedDelta_eq_some_iff.mpr
      (Or.inr ⟨by norm_num, by norm_num, by norm_num [min_def]⟩)
  · exact hnv.symm
  · rw [hnv]; rw [abs_of_pos (by norm_num : (0 : ℝ) < 9 / 16)]; norm_num

theorem c8_step_combined :
    applyInertiaStep 0 (-1000) 1000 1 16 (Real.log 2 / 8) (1 / 100) (1 / 2) =
      some (16, 5 / 8) := by
  have hnv : nextVelocityPxMs 1 16 (Real.log 2 / 8) (1 / 2) = 5 / 8 := by
    simp only [nextVelocityPxMs]
    rw [if_pos (by norm_num : (0 : ℝ) < 1 / 2), exp_c8_quarter]
    norm_num
  refine applyInertiaStep_eq_some_iff.mpr ⟨?_, ?_, ?_, ?_⟩
  · rw [abs_one]; norm_num
  · exact resolveBoundedDelta_eq_some_iff.mpr
      (Or.inr ⟨by norm_num, by norm_num, by norm_num [min_def]⟩)
  · exact hnv.symm
  · rw [hnv]; rw [abs_of_pos (by norm_num : (0 : ℝ) < 5 / 8)]; norm_num

/-- Counterexample to C8 as stated: with the default-style smoothing
`emaAlpha = 1/2` (any positive `emaAlpha` behaves likewise), friction
`log 2 / 8`, start `(value, velocity) = (0, 1)`, bounds `[-1000, 1000]`,
`minVelocity = 1/100`: two successive 8 ms steps both return results and end
with velocity `9/16`, while the single 16 ms step returns velocity `5/8`,
and `9/16 ≠ 5/8`.  So the decay of `applyInertiaStep` is not frame-rate
independent for every configuration. -/
theorem C8_counterexample :
    applyInertiaStep 0 (-1000) 1000 1 8 (Real.log 2 / 8) (1 / 100) (1 / 2) =
        some (8, 3 / 4) ∧
    applyInertiaStep 8 (-1000) 1000 (3 / 4) 8 (Real.log 2 / 8) (1 / 100)
        (1 / 2) = some (14, 9 / 16) ∧
    applyInertiaStep 0 (-1000) 1000 1 16 (Real.log 2 / 8) (1 / 100) (1 / 2) =
        some (16, 5 / 8) ∧
    (9 / 16 : ℝ) ≠ 5 / 8 :=
  ⟨c8_step_first, c8_step_second, c8_step_combined, by norm_num⟩

/-- C8 as amended: with smoothing disabled (`emaAlpha = 0`) and positive
elapsed times, the velocity decay is frame-rate independent: if a `t1` step
and then a `t2` step (output threaded back as input) both return results,
the single `t1 + t2` step also returns a result and its velocity equals the
velocity after the two steps. -/
theorem C8_decay_additive_no_smoothing
    (value mn mx v f minV t1 t2 x1 v1 x2 v2 : ℝ)
    (ht1 : 0 < t1) (ht2 : 0 < t2)
    (h1 : applyInertiaStep value mn mx v t1 f minV 0 = some (x1, v1))
    (h2 : applyInertiaStep x1 mn mx v1 t2 f minV 0 = some (x2, v2)) :
    ∃ x', applyInertiaStep value mn mx v (t1 + t2) f minV 0 =
      some (x', v2) := by
  obtain ⟨A1, A2, A3, _⟩ := applyInertiaStep_eq_some_iff.mp h1
  obtain ⟨_, _, B3, B4⟩ := applyInertiaStep_eq_some_iff.mp h2
  have A3' : v1 = v * Real.exp (-f * t1) := by
    simpa [nextVelocityPxMs_zero_alpha] using A3
  have B3' : v2 = v1 * Real.exp (-f * t2) := by
    simpa [nextVelocityPxMs_zero_alpha] using B3
  have e12 : Real.exp (-f * (t1 + t2)) =
      Real.exp (-f * t1) * Real.exp (-f * t2) := by
    rw [show -f * (t1 + t2) = -f * t1 + -f * t2 by ring, Real.exp_add]
  have hv2 : v2 = v * Real.exp (-f * (t1 + t2)) := by
    rw [B3', A3', e12]; ring
  have hnv12 : nextVelocityPxMs v (t1 + t2) f 0 = v2 := by
    rw [nextVelocityPxMs_zero_alpha, ← hv2]
  have hB4' : ¬|v2| < minV := by
    rw [B3']
    simpa [nextVelocityPxMs_zero_alpha] using B4
  rcases resolveBoundedDelta_eq_some_iff.mp A2 with
    ⟨hneg, hbound, _⟩ | ⟨hpos, hbound, _⟩
  · have hv : v < 0 := by nlinarith
    refine ⟨Max.max (value + v * (t1 + t2)) mn,
      applyInertiaStep_eq_some_iff.mpr ⟨A1, ?_, ?_, ?_⟩⟩
    · exact resolveBoundedDelta_eq_some_iff.mpr
        (Or.inl ⟨mul_neg_of_neg_of_pos hv (by linarith), hbound, rfl⟩)
    · simpa using hnv12.symm
    · rw [hnv12]; exact hB4'
  · have hv : 0 < v := by nlinarith
    refine ⟨Min.min (value + v * (t1 + t2)) mx,
      applyInertiaStep_eq_some_iff.mpr ⟨A1, ?_, ?_, ?_⟩⟩
    · exact resolveBoundedDelta_eq_some_iff.mpr
        (Or.inr ⟨mul_pos hv (by linarith), hbound, rfl⟩)
    · simpa using hnv12.symm
    · rw [hnv12]; exact hB4'

theorem c8_nosmooth_first :
    applyInertiaStep 0 (-1000) 1000 1 8 (Real.log 2 / 8) (1 / 100) 0 =
      some (8, 1 / 2) := by
  have hnv : nextVelocityPxMs 1 8 (Real.log 2 / 8) 0 = 1 / 2 := by
    rw [nextVelocityPxMs_zero_alpha, exp_c8_half]
    norm_num
  refine applyInertiaStep_eq_some_iff.mpr ⟨?_, ?_, ?_, ?_⟩
  · rw [abs_one]; norm_num
  · exact resolveBoundedDelta_eq_some_iff.mpr
      (Or.inr ⟨by norm_num, by norm_num, by norm_num [min_def]⟩)
  · exact hnv.symm
  · rw [hnv]; rw [abs_of_pos (by norm_num : (0 : ℝ) < 1 / 2)]; norm_num

theorem c8_nosmooth_second :
    applyInertiaStep 8 (-1000) 1000 (1 / 2) 8 (Real.log 2 / 8) (1 / 100) 0 =
      some (12, 1 / 4) := by
  have hnv : nextVelocityPxMs (1 / 2) 8 (Real.log 2 / 8) 0 = 1 / 4 := by
    rw [nextVelocityPxMs_zero_alpha, exp_c8_half]
    norm_num
  refine applyInertiaStep_eq_some_iff.mpr ⟨?_, ?_, ?_, ?_⟩
  · rw [abs_of_pos (by norm_num : (0 : ℝ) < 1 / 2)]; norm_num
  · exact resolveBoundedDelta_eq_some_iff.mpr
      (Or.inr ⟨by norm_num, by norm_num, by norm_num [min_def]⟩)
  · exact hnv.symm
  · rw [hnv]; rw [abs_of_pos (by norm_num : (0 : ℝ) < 1 / 4)]; norm_num

/-- Witness for the amended C8 at two 8 ms steps versus one 16 ms step with
`emaAlpha = 0`. -/
theorem C8_witness :
    ∃ x', applyInertiaStep 0 (-1000) 1000 1 (8 + 8) (Real.log 2 / 8)
      (1 / 100) 0 = some (x', 1 / 4) :=
  C8_decay_additive_no_smoothing 0 (-1000) 1000 1 (Real.log 2 / 8) (1 / 100)
    8 8 8 (1 / 2) 12 (1 / 4) (by norm_num) (by norm_num)
    c8_nosmooth_first c8_nosmooth_second

/-- C1: for `min ≤ value ≤ max`, `resolveBoundedDelta` is blocked exactly for
`delta = 0`, or `delta < 0` with `value ≤ min`, or `delta > 0` with
`value ≥ max`; otherwise it returns `max(value + delta, min)` (negative delta)
or `min(value + delta, max)` (positive delta), and the returned value lies in
`[min, max]`. -/
theorem C1_resolveBoundedDelta_bounded (value delta mn mx : ℚ)
    (hlo : mn ≤ value) (hhi : value ≤ mx) :
    (resolveBoundedDelta delta value mn mx = none ↔
      delta = 0 ∨ (delta < 0 ∧ value ≤ mn) ∨ (0 < delta ∧ mx ≤ value)) ∧
    (∀ r, resolveBoundedDelta delta value mn mx = some r →
      (delta < 0 → r = Max.max (value + delta) mn) ∧
      (0 < delta → r = Min.min (value + delta) mx) ∧
      mn ≤ r ∧ r ≤ mx) := by
  constructor
  · unfold resolveBoundedDelta
    rcases lt_trichotomy delta 0 with h | h | h
    · by_cases hb : value ≤ mn <;>
        simp [h, h.ne, hb, not_lt.mpr h.le]
    · simp [h]
    · by_cases hb : mx ≤ value <;>
        simp [h, h.ne', hb, not_lt.mpr h.le, not_lt.mpr (le_of_lt h)]
  · intro r hr
    unfold resolveBoundedDelta at hr
    rcases lt_trichotomy delta 0 with h | h | h
    · by_cases hb : value ≤ mn
      · simp [h.ne, h, hb] at hr
      · simp [h.ne, h, hb] at hr
        refine ⟨fun _ => hr.symm, fun hpos => absurd hpos (not_lt.mpr h.le), ?_, ?_⟩
        · rw [← hr]; exact le_max_right _ _
        · rw [← hr]
          exact max_le (by linarith) (le_trans hlo hhi)
    · simp [h] at hr
    · by_cases hb : mx ≤ value
      · simp [h.ne', h, not_lt.mpr h.le, hb] at hr
      · simp [h.ne', h, not_lt.mpr h.le, hb] at hr
        refine ⟨fun hneg => absurd hneg (not_lt.mpr h.le), fun _ => hr.symm, ?_, ?_⟩
        · rw [← hr]
          exact le_min (by linarith) (le_trans hlo hhi)
        · rw [← hr]; exact min_le_right _ _

/-- Witness for C1 at the spec's own example: `value = 50`, `delta = -10`,
bounds `[0, 100]`. -/
theorem C1_witness :
    (resolveBoundedDelta (-10 : ℚ) 50 0 100 = none ↔
      (-10 : ℚ) = 0 ∨ ((-10 : ℚ) < 0 ∧ (50 : ℚ) ≤ 0) ∨ ((0 : ℚ) < -10 ∧ (100 : ℚ) ≤ 50)) ∧
    (∀ r, resolveBoundedDelta (-10 : ℚ) 50 0 100 = some r →
      ((-10 : ℚ) < 0 → r = Max.max ((50 : ℚ) + -10) 0) ∧
      ((0 : ℚ) < -10 → r = Min.min ((50 : ℚ) + -10) 100) ∧
      (0 : ℚ) ≤ r ∧ r ≤ 100) :=
  C1_resolveBoundedDelta_bounded 50 (-10) 0 100 (by norm_num) (by norm_num)

end HoneyUtils

namespace HoneyUtils

theorem lowerChar_space (c : Char) : lowerChar c = ' ' ↔ c = ' ' := by
  unfold lowerChar
  split
  all_goals constructor <;> (intro h; simp_all)

theorem splitOnSpace_map_lower (s : List Char) :
    splitOnSpace (s.map lowerChar) =
      (splitOnSpace s).map (fun w => w.map lowerChar) := by
  induction s with
  | nil => rfl
  | cons c rest ih =>
    by_cases hc : c = ' '
    · subst hc
      simp [splitOnSpace, ih, show lowerChar ' ' = ' ' from rfl]
    · have hc' : lowerChar c ≠ ' ' := fun he => hc ((lowerChar_space c).mp he)
      rcases hsr : splitOnSpace rest with _ | ⟨w, ws⟩
      · simp only [List.map_cons, splitOnSpace, if_neg hc', if_neg hc, ih, hsr]
        rfl
      · simp only [List.map_cons, splitOnSpace, if_neg hc', if_neg hc, ih, hsr]
        rfl

theorem splitStringIntoWords_lower (s : List Char) :
    splitStringIntoWords (toLowerStr s) =
      (splitStringIntoWords s).map toLowerStr := by
  unfold splitStringIntoWords toLowerStr
  have hp : ((fun w : List Char => !w.isEmpty) ∘
      fun w : List Char => List.map lowerChar w) =
      fun w : List Char => !w.isEmpty := by
    funext w
    cases w <;> rfl
  rw [splitOnSpace_map_lower, List.filter_map, hp]

theorem startsWithChars_iff (w sw : List Char) :
    startsWithChars w sw = true ↔ sw <+: w := by
  induction sw generalizing w with
  | nil => simp [startsWithChars]
  | cons d ds ih =>
    cases w with
    | nil =>
      simp [startsWithChars]
    | cons c cs =>
      simp only [startsWithChars, Bool.and_eq_true, beq_iff_eq,
        List.cons_prefix_cons, ih]
      constructor
      · rintro ⟨h, h'⟩; exact ⟨h.symm, h'⟩
      · rintro ⟨h, h'⟩; exact ⟨h.symm, h'⟩

/-- Counterexample to C4 as stated: for the query `"a"` and the (non-falsy)
node value `"b\ta"`, the code's tokenizer (split on the space character
only) produces the single value word `"b\ta"`, so the node does not match,
while the claim's whitespace tokenization produces the words `"b"`, `"a"`
and declares a match. -/
theorem C4_counterexample :
    (['b', '\t', 'a'] : List Char) ≠ [] ∧
    isNodeMatched (splitStringIntoWords (toLowerStr ['a']))
      (splitStringIntoWords (toLowerStr ['b', '\t', 'a'])) = false ∧
    specMatched ['a'] ['b', '\t', 'a'] = true := by
  exact ⟨by decide, by decide, by decide⟩

/-- C4 as amended: a node with a non-falsy value is a direct match exactly
when every query word is a prefix of at least one value word, where query
and value are tokenized into lowercase words by splitting on the *space
character* (not on arbitrary whitespace) and discarding empty tokens. -/
theorem C4_match_iff_word_prefix (q v : List Char) (_hv : v ≠ []) :
    isNodeMatched (splitStringIntoWords (toLowerStr q))
        (splitStringIntoWords (toLowerStr v)) = true ↔
      ∀ sw ∈ (splitStringIntoWords q).map toLowerStr,
        ∃ w ∈ (splitStringIntoWords v).map toLowerStr, sw <+: w := by
  rw [splitStringIntoWords_lower, splitStringIntoWords_lower]
  unfold isNodeMatched
  rw [List.all_eq_true]
  constructor
  · intro h sw hsw
    obtain ⟨w, hw, hpre⟩ := List.any_eq_true.mp (h sw hsw)
    exact ⟨w, hw, (startsWithChars_iff w sw).mp hpre⟩
  · intro h sw hsw
    obtain ⟨w, hw, hpre⟩ := h sw hsw
    exact List.any_eq_true.mpr ⟨w, hw, (startsWithChars_iff w sw).mpr hpre⟩

/-- Witness for the amended C4: query `"a"`, value `"ab x"`. -/
theorem C4_witness :
    isNodeMatched (splitStringIntoWords (toLowerStr ['a']))
        (splitStringIntoWords (toLowerStr ['a', 'b', ' ', 'x'])) = true ↔
      ∀ sw ∈ (splitStringIntoWords ['a']).map toLowerStr,
        ∃ w ∈ (splitStringIntoWords ['a', 'b', ' ', 'x']).map toLowerStr,
          sw <+: w :=
  C4_match_iff_word_prefix ['a'] ['a', 'b', ' ', 'x'] (by decide)

end HoneyUtils

namespace HoneyUtils

theorem sizeT_pos (t : HTree) : 1 ≤ sizeT t := by
  cases t <;> simp [sizeT]

theorem sizeT_eq (t : HTree) : sizeT t = 1 + sizeL t.childrenOf := by
  cases t <;> simp [sizeT, sizeL, HTree.childrenOf]

theorem flatP_nil (p : Option Nat) (d : Nat) : flatP [] p d = [] := by
  simp [flatP]

theorem flatP_cons (t : HTree) (rest : List HTree) (p : Option Nat) (d : Nat) :
    flatP (t :: rest) p d =
      mkFlat t p d ::
        (flatP t.childrenOf (some t.idOf) (d + 1) ++ flatP rest p d) := by
  simp [flatP]

theorem flattenList_eq_fuel :
    ∀ (n : Nat) (l : List HTree) (acc : List FNode) (p : Option Nat) (d : Nat),
      sizeL l ≤ n → flattenList l acc p d = acc ++ flatP l p d := by
  intro n
  induction n with
  | zero =>
    intro l acc p d h
    cases l with
    | nil => simp [flattenList, flatP_nil]
    | cons t rest =>
      exfalso
      have := sizeT_pos t
      simp [sizeL] at h
      omega
  | succ n ih =>
    intro l acc p d h
    cases l with
    | nil => simp [flattenList, flatP_nil]
    | cons t rest =>
      have hrest : sizeL rest ≤ n := by
        have := sizeT_pos t
        simp [sizeL] at h
        omega
      cases t with
      | noArr i v =>
        rw [flattenList]
        rw [ih rest (acc ++ [mkFlat (HTree.noArr i v) p d]) p d hrest,
          flatP_cons]
        simp [HTree.childrenOf, flatP_nil]
      | arr i v cs =>
        have hcs : sizeL cs ≤ n := by
          simp [sizeL, sizeT] at h
          omega
        rw [flattenList]
        rw [ih cs (acc ++ [mkFlat (HTree.arr i v cs) p d]) (some i) (d + 1) hcs]
        rw [ih rest _ p d hrest, flatP_cons]
        simp [HTree.childrenOf, HTree.idOf]

theorem flattenList_eq (l : List HTree) (acc : List FNode) (p : Option Nat)
    (d : Nat) : flattenList l acc p d = acc ++ flatP l p d :=
  flattenList_eq_fuel (sizeL l) l acc p d le_rfl

theorem flattenTree_some (items : List HTree) :
    flattenTree (some items) = flatP items none 0 := by
  simp [flattenTree, flattenList_eq]

theorem flatP_append (a b : List HTree) (p : Option Nat) (d : Nat) :
    flatP (a ++ b) p d = flatP a p d ++ flatP b p d := by
  induction a with
  | nil => simp [flatP_nil]
  | cons t rest ih => simp [flatP_cons, ih]

theorem flatP_length_fuel :
    ∀ (n : Nat) (ts : List HTree) (p : Option Nat) (d : Nat),
      sizeL ts ≤ n → (flatP ts p d).length = sizeL ts := by
  intro n
  induction n with
  | zero =>
    intro ts p d h
    cases ts with
    | nil => simp [flatP_nil, sizeL]
    | cons t rest =>
      exfalso
      have := sizeT_pos t
      simp [sizeL] at h
      omega
  | succ n ih =>
    intro ts p d h
    cases ts with
    | nil => simp [flatP_nil, sizeL]
    | cons t rest =>
      have h1 := sizeT_pos t
      have hc : sizeL t.childrenOf ≤ n := by
        have := sizeT_eq t
        simp [sizeL] at h
        omega
      have hr : sizeL rest ≤ n := by
        simp [sizeL] at h
        omega
      rw [flatP_cons]
      simp only [List.length_cons, List.length_append, ih _ _ _ hc,
        ih _ _ _ hr, sizeL]
      have := sizeT_eq t
      omega

theorem flatP_length (ts : List HTree) (p : Option Nat) (d : Nat) :
    (flatP ts p d).length = sizeL ts :=
  flatP_length_fuel (sizeL ts) ts p d le_rfl

theorem flatP_get_root :
    ∀ (ts : List HTree) (i : Nat) (t : HTree) (p : Option Nat) (d : Nat),
      ts.get? i = some t →
      (flatP ts p d).get? (sizeL (ts.take i)) = some (mkFlat t p d) := by
  intro ts
  induction ts with
  | nil => intro i t p d h; simp at h
  | cons u rest ih =>
    intro i t p d h
    cases i with
    | zero =>
      simp only [List.get?] at h
      cases h
      simp [flatP_cons, sizeL]
    | succ i =>
      rw [List.get?_cons_succ] at h
      have hs : sizeL ((u :: rest).take (i + 1)) =
          (sizeL u.childrenOf + sizeL (rest.take i)) + 1 := by
        simp only [List.take, sizeL]
        rw [sizeT_eq]
        omega
      rw [flatP_cons, hs, List.get?_cons_succ, List.get?_append_right]
      · rw [flatP_length]
        have : sizeL u.childrenOf + sizeL (rest.take i) - sizeL u.childrenOf =
            sizeL (rest.take i) := by omega
        rw [this]
        exact ih i t p d h
      · rw [flatP_length]
        omega

theorem flatP_get_sub :
    ∀ (ts : List HTree) (i : Nat) (u : HTree) (p : Option Nat) (d k : Nat),
      ts.get? i = some u → k < sizeL u.childrenOf →
      (flatP ts p d).get? (sizeL (ts.take i) + 1 + k) =
        (flatP u.childrenOf (some u.idOf) (d + 1)).get? k := by
  intro ts
  induction ts with
  | nil => intro i u p d k h hk; simp at h
  | cons v rest ih =>
    intro i u p d k h hk
    cases i with
    | zero =>
      simp only [List.get?] at h
      cases h
      rw [flatP_cons]
      simp only [List.take, sizeL]
      have : 0 + 1 + k = k + 1 := by omega
      rw [this, List.get?_cons_succ, List.get?_append]
      rw [flatP_length]
      exact hk
    | succ i =>
      rw [List.get?_cons_succ] at h
      have hs : sizeL ((v :: rest).take (i + 1)) =
          sizeT v + sizeL (rest.take i) := by
        simp only [List.take, sizeL]
      rw [flatP_cons, hs, sizeT_eq v]
      have harith : 1 + sizeL v.childrenOf + sizeL (rest.take i) + 1 + k =
          (sizeL v.childrenOf + (sizeL (rest.take i) + 1 + k)) + 1 := by
        omega
      rw [harith, List.get?_cons_succ, List.get?_append_right]
      · rw [flatP_length]
        have : sizeL v.childrenOf + (sizeL (rest.take i) + 1 + k) -
            sizeL v.childrenOf = sizeL (rest.take i) + 1 + k := by omega
        rw [this]
        exact ih i u p d k h hk
      · rw [flatP_length]
        omega

theorem parentIdWithin_cons (ts : List HTree) (i j : Nat) (is' : List Nat)
    (p : Option Nat) (u : HTree) (hgi : ts.get? i = some u) :
    parentIdWithin ts i (j :: is') p =
      parentIdWithin u.childrenOf j is' (some u.idOf) := by
  have hgi' : ts[i]? = some u := by
    rw [← List.get?_eq_getElem?]
    exact hgi
  cases is' with
  | nil =>
    simp [parentIdWithin, nodeAt, hgi']
  | cons j' rest' =>
    simp only [parentIdWithin, List.isEmpty_cons, List.dropLast_cons₂]
    rw [show nodeAt ts i (j :: (j' :: rest').dropLast) =
        nodeAt u.childrenOf j (j' :: rest').dropLast by
      cases hdl : (j' :: rest').dropLast <;> simp [nodeAt, hgi']]
    simp

theorem nodeAt_flatIdx :
    ∀ (is : List Nat) (ts : List HTree) (i : Nat) (p : Option Nat) (d : Nat)
      (t : HTree),
      nodeAt ts i is = some t →
      ∃ k, flatIdx ts i is = some k ∧
        (flatP ts p d).get? k =
          some (mkFlat t (parentIdWithin ts i is p) (d + is.length)) := by
  intro is
  induction is with
  | nil =>
    intro ts i p d t h
    simp only [nodeAt] at h
    have hi : i < ts.length := (List.get?_eq_some.mp h).1
    refine ⟨sizeL (ts.take i), ?_, ?_⟩
    · simp [flatIdx, hi]
    · rw [flatP_get_root ts i t p d h]
      simp [parentIdWithin]
  | cons j is' ih =>
    intro ts i p d t h
    simp only [nodeAt] at h
    rcases hgi : ts.get? i with _ | u
    · rw [hgi] at h; cases h
    · rw [hgi] at h
      have hgi' : ts[i]? = some u := by
        rw [← List.get?_eq_getElem?]
        exact hgi
      obtain ⟨k', hk', hget'⟩ := ih u.childrenOf j (some u.idOf) (d + 1) t h
      have hklt : k' < sizeL u.childrenOf := by
        have := (List.get?_eq_some.mp hget').1
        rwa [flatP_length] at this
      refine ⟨sizeL (ts.take i) + 1 + k', ?_, ?_⟩
      · simp [flatIdx, hgi, hgi', hk']
      · rw [flatP_get_sub ts i u p d k' hgi hklt, hget',
          parentIdWithin_cons ts i j is' p u hgi]
        have : d + (j :: is').length = d + 1 + is'.length := by
          simp
          omega
        rw [this]

theorem flatIdx_cons_some {ts : List HTree} {i : Nat} {u : HTree}
    (h : ts.get? i = some u) (j : Nat) (is : List Nat) :
    flatIdx ts i (j :: is) =
      (flatIdx u.childrenOf j is).map (fun k => sizeL (ts.take i) + 1 + k) := by
  rw [flatIdx, h]

theorem flatIdx_cons_none {ts : List HTree} {i : Nat}
    (h : ts.get? i = none) (j : Nat) (is : List Nat) :
    flatIdx ts i (j :: is) = none := by
  rw [flatIdx, h]

theorem flatIdx_lt_extend :
    ∀ (is js : List Nat) (ts : List HTree) (i a b : Nat),
      js ≠ [] → flatIdx ts i is = some a →
      flatIdx ts i (is ++ js) = some b → a < b := by
  intro is
  induction is with
  | nil =>
    intro js ts i a b hjs ha hb
    simp only [flatIdx] at ha
    rcases Nat.lt_or_ge i ts.length with hi | hi
    · rw [if_pos hi] at ha
      cases ha
      cases js with
      | nil => exact absurd rfl hjs
      | cons j js' =>
        rw [List.nil_append] at hb
        rcases hgi : ts.get? i with _ | u
        · rw [flatIdx_cons_none hgi] at hb
          cases hb
        · rw [flatIdx_cons_some hgi] at hb
          rcases hin : flatIdx u.childrenOf j js' with _ | k
          · rw [hin] at hb; cases hb
          · rw [hin] at hb
            simp only [Option.map_some'] at hb
            cases hb
            omega
    · rw [if_neg (by omega)] at ha
      cases ha
  | cons j is' ih =>
    intro js ts i a b hjs ha hb
    rw [List.cons_append] at hb
    rcases hgi : ts.get? i with _ | u
    · rw [flatIdx_cons_none hgi] at ha
      cases ha
    · rw [flatIdx_cons_some hgi] at ha hb
      rcases h1 : flatIdx u.childrenOf j is' with _ | k1
      · rw [h1] at ha; cases ha
      · rw [h1] at ha
        simp only [Option.map_some'] at ha
        cases ha
        rcases h2 : flatIdx u.childrenOf j (is' ++ js) with _ | k2
        · rw [h2] at hb; cases hb
        · rw [h2] at hb
          simp only [Option.map_some'] at hb
          cases hb
          have := ih js u.childrenOf j k1 k2 hjs h1 h2
          omega

end HoneyUtils

namespace HoneyUtils

/-- C2: `flattenTree` of a nested hierarchy produces exactly `sizeL items`
flat nodes (absent input produces the empty list); the node addressed by any
path of child indices appears in the output at the position `flatIdx`
computes, carrying the original fields (id and value inside `mkFlat`), the
`parentId` of its immediate parent (`none` for roots), `depthLevel` equal to
its nesting depth, and `childCount` equal to the length of its children
array; and the flat position of a node is strictly smaller than the flat
position of any of its descendants (strict preorder). -/
theorem C2_flattenTree_correct (items : List HTree) :
    (flattenTree (some items)).length = sizeL items ∧
    flattenTree none = [] ∧
    (∀ i is t, nodeAt items i is = some t →
      ∃ k, flatIdx items i is = some k ∧
        (flattenTree (some items)).get? k =
          some (mkFlat t (parentIdWithin items i is none) is.length)) ∧
    (∀ i is js a b, js ≠ [] → flatIdx items i is = some a →
      flatIdx items i (is ++ js) = some b → a < b) := by
  refine ⟨?_, rfl, ?_, ?_⟩
  · rw [flattenTree_some, flatP_length]
  · intro i is t h
    have := nodeAt_flatIdx is items i none 0 t h
    simpa [flattenTree_some, Nat.zero_add] using this
  · intro i is js a b hjs ha hb
    exact flatIdx_lt_extend is js items i a b hjs ha hb

/-- Witness for C2 on the two-level example tree: the node at path
`(0, [1])` (second child of the first root) sits at the flat position
`flatIdx` computes, with parent id 1 and depth 1. -/
theorem C2_witness :
    ∃ k,
      flatIdx [HTree.arr 1 ['r'] [HTree.noArr 2 ['a'], HTree.noArr 3 ['b']]]
        0 [1] = some k ∧
      (flattenTree
          (some [HTree.arr 1 ['r']
            [HTree.noArr 2 ['a'], HTree.noArr 3 ['b']]])).get? k =
        some (mkFlat (HTree.noArr 3 ['b'])
          (parentIdWithin
            [HTree.arr 1 ['r'] [HTree.noArr 2 ['a'], HTree.noArr 3 ['b']]]
            0 [1] none) 1) :=
  ((C2_flattenTree_correct
    [HTree.arr 1 ['r'] [HTree.noArr 2 ['a'], HTree.noArr 3 ['b']]]).2.2.1)
    0 [1] (HTree.noArr 3 ['b']) rfl

end HoneyUtils

namespace HoneyUtils

/-- C9: a query that tokenizes to zero words makes `searchTree` the identity
filter — it returns the input flat tree unchanged (and throws nothing). -/
theorem C9_searchTree_empty_query (ft : List FNode) (q : List Char)
    (h : splitStringIntoWords (toLowerStr q) = []) :
    searchTree ft q = some ft := by
  unfold searchTree
  simp [h]

/-- Witness for C9: a two-space query on a one-node flat tree. -/
theorem C9_witness :
    searchTree [⟨1, ['a'], none, 0, 0⟩] [' ', ' '] =
      some [⟨1, ['a'], none, 0, 0⟩] :=
  C9_searchTree_empty_query [⟨1, ['a'], none, 0, 0⟩] [' ', ' '] (by decide)

/-- Counterexample to C5 as stated: the flat tree of the hierarchy
`1[r] → (2[a] → 4[x], 3[x])` satisfies the flat-node invariant (it is the
`flattenTree` image of that hierarchy and its ids are distinct), yet
searching for `"x"` returns the nodes with ids `1, 2, 4, 1, 3`: the root is
inserted once by node 4's ancestor walk and *again* by node 3's ancestor
walk, because the walk compares only the previously inserted node's
`parentId` (node 4's, `some 2`) with node 3's (`some 1`).  So a node can
appear more than once in the result. -/
theorem C5_counterexample :
    flattenTree (some [HTree.arr 1 ['r']
        [HTree.arr 2 ['a'] [HTree.noArr 4 ['x']], HTree.noArr 3 ['x']]]) =
      [⟨1, ['r'], none, 0, 2⟩, ⟨2, ['a'], some 1, 1, 1⟩,
        ⟨4, ['x'], some 2, 2, 0⟩, ⟨3, ['x'], some 1, 1, 0⟩] ∧
    (([⟨1, ['r'], none, 0, 2⟩, ⟨2, ['a'], some 1, 1, 1⟩,
        ⟨4, ['x'], some 2, 2, 0⟩,
        ⟨3, ['x'], some 1, 1, 0⟩] : List FNode).map FNode.id).Nodup ∧
    parentEarlierB
      [⟨1, ['r'], none, 0, 2⟩, ⟨2, ['a'], some 1, 1, 1⟩,
        ⟨4, ['x'], some 2, 2, 0⟩, ⟨3, ['x'], some 1, 1, 0⟩] = true ∧
    searchTree
      [⟨1, ['r'], none, 0, 2⟩, ⟨2, ['a'], some 1, 1, 1⟩,
        ⟨4, ['x'], some 2, 2, 0⟩, ⟨3, ['x'], some 1, 1, 0⟩] ['x'] =
      some [⟨1, ['r'], none, 0, 2⟩, ⟨2, ['a'], some 1, 1, 1⟩,
        ⟨4, ['x'], some 2, 2, 0⟩, ⟨1, ['r'], none, 0, 2⟩,
        ⟨3, ['x'], some 1, 1, 0⟩] ∧
    ¬(([⟨1, ['r'], none, 0, 2⟩, ⟨2, ['a'], some 1, 1, 1⟩,
        ⟨4, ['x'], some 2, 2, 0⟩, ⟨1, ['r'], none, 0, 2⟩,
        ⟨3, ['x'], some 1, 1, 0⟩] : List FNode).map FNode.id).Nodup := by
  refine ⟨?_, by decide, by decide, by decide, by decide⟩
  rw [flattenTree_some]
  simp [flatP_cons, flatP_nil, mkFlat, HTree.idOf, HTree.valueOf,
    HTree.childCountOf, HTree.childrenOf]

end HoneyUtils

namespace HoneyUtils

theorem idLookup_none (pid : Nat) :
    ∀ (l : List FNode) (k : Nat), (∀ m ∈ l, m.id ≠ pid) →
      idLookup pid l k = none := by
  intro l
  induction l with
  | nil => intro k _; rfl
  | cons n rest ih =>
    intro k h
    simp only [idLookup]
    rw [ih (k + 1) (fun m hm => h m (List.mem_cons_of_mem n hm))]
    simp [h n (List.mem_cons_self n rest)]

theorem idLookup_sound (pid : Nat) :
    ∀ (l : List FNode) (k j : Nat), idLookup pid l k = some j →
      ∃ i m, j = k + i ∧ l.get? i = some m ∧ m.id = pid := by
  intro l
  induction l with
  | nil => intro k j h; cases h
  | cons n rest ih =>
    intro k j h
    simp only [idLookup] at h
    split at h
    · rename_i j' h1
      obtain ⟨i', m, hji, hg, hid⟩ := ih (k + 1) j' h1
      cases h
      exact ⟨i' + 1, m, by omega, hg, hid⟩
    · split at h
      · cases h
        rename_i h2
        exact ⟨0, n, by omega, rfl, h2⟩
      · cases h

theorem idLookup_unique :
    ∀ (l : List FNode) (k i : Nat) (m : FNode),
      (l.map FNode.id).Nodup → l.get? i = some m →
      idLookup m.id l k = some (k + i) := by
  intro l
  induction l with
  | nil => intro k i m _ h; cases h
  | cons n rest ih =>
    intro k i m hnd hg
    simp only [List.map_cons, List.nodup_cons] at hnd
    cases i with
    | zero =>
      simp only [List.get?] at hg
      cases hg
      have h0 : idLookup n.id rest (k + 1) = none := by
        refine idLookup_none n.id rest (k + 1) ?_
        intro m' hm' he
        exact hnd.1 (he ▸ List.mem_map_of_mem FNode.id hm')
      simp [idLookup, h0]
    | succ i =>
      rw [List.get?_cons_succ] at hg
      have h1 := ih (k + 1) i m hnd.2 hg
      simp only [idLookup, h1]
      congr 1
      omega

theorem nodeIdToIndexMap_unique {ft : List FNode} {i : Nat} {m : FNode}
    (hnd : (ft.map FNode.id).Nodup) (hg : ft.get? i = some m) :
    nodeIdToIndexMap ft m.id = some i := by
  have := idLookup_unique ft 0 i m hnd hg
  simpa [nodeIdToIndexMap] using this

theorem nodeIdToIndexMap_sound {ft : List FNode} {pid j : Nat}
    (h : nodeIdToIndexMap ft pid = some j) :
    ∃ m, ft.get? j = some m ∧ m.id = pid := by
  obtain ⟨i, m, hji, hg, hid⟩ := idLookup_sound pid ft 0 j h
  exact ⟨m, by rwa [show j = i by omega], hid⟩

theorem idx_unique {ft : List FNode} (hnd : (ft.map FNode.id).Nodup)
    {i j : Nat} {a b : FNode} (ha : ft.get? i = some a)
    (hb : ft.get? j = some b) (hid : a.id = b.id) : i = j := by
  have h1 := nodeIdToIndexMap_unique hnd ha
  have h2 := nodeIdToIndexMap_unique hnd hb
  rw [hid] at h1
  rw [h1] at h2
  cases h2
  rfl

theorem peB_to_PE1 {ft : List FNode} (h : parentEarlierB ft = true) :
    PE1 ft := by
  intro j n pid hg hp
  have hj : j < ft.length := (List.get?_eq_some.mp hg).1
  have hall := List.all_eq_true.mp h j (List.mem_range.mpr hj)
  have hg' : ft[j]? = some n := by
    rw [← List.get?_eq_getElem?]
    exact hg
  have hall2 : ((ft.take j).any fun m => m.id == pid) = true := by
    simpa [hg', hp] using hall
  obtain ⟨m, hmem, hbeq⟩ := List.any_eq_true.mp hall2
  obtain ⟨i, hgi⟩ := List.mem_iff_get?.mp hmem
  have hi : i < j := by
    have hlen := (List.get?_eq_some.mp hgi).1
    rw [List.length_take] at hlen
    omega
  refine ⟨i, m, hi, ?_, by simpa using hbeq⟩
  rw [← List.get?_take hi]
  exact hgi

theorem ipn_success (ft : List FNode) (hnd : (ft.map FNode.id).Nodup)
    (hpe : PE1 ft) :
    ∀ (fuel j : Nat) (tgt : FNode) (acc : List FNode) (pid : Nat),
      ft.get? j = some tgt → tgt.parentId = some pid → j < fuel →
      ∃ out, insertParentNodes ft fuel tgt acc = some out := by
  intro fuel
  induction fuel with
  | zero => intro j tgt acc pid _ _ hj; omega
  | succ fuel ih =>
    intro j tgt acc pid hg hp hj
    obtain ⟨i, m, hij, hgi, hid⟩ := hpe j tgt pid hg hp
    have hmap : nodeIdToIndexMap ft pid = some i := by
      rw [← hid]
      exact nodeIdToIndexMap_unique hnd hgi
    simp only [insertParentNodes, hp, hmap, hgi]
    rcases hmp : m.parentId with _ | pid'
    · simp only [hmp]
      exact ⟨_, rfl⟩
    · obtain ⟨out1, hout1⟩ := ih i m acc pid' hgi hmp (by omega)
      simp only [hmp, hout1]
      exact ⟨_, rfl⟩

theorem ins_success (ft : List FNode) (hnd : (ft.map FNode.id).Nodup)
    (hpe : PE1 ft) :
    ∀ (fuel j : Nat) (tgt : FNode) (acc : List FNode),
      ft.get? j = some tgt → ft.length - j ≤ fuel →
      ∃ out, insertNestedItems ft fuel tgt acc = some out := by
  intro fuel
  induction fuel with
  | zero =>
    intro j tgt acc hg hfuel
    have := (List.get?_eq_some.mp hg).1
    omega
  | succ fuel ih =>
    intro j tgt acc hg hfuel
    have hjlen := (List.get?_eq_some.mp hg).1
    simp only [insertNestedItems]
    by_cases hcc : tgt.childCount = 0
    · rw [if_pos hcc]
      exact ⟨acc, rfl⟩
    · rw [if_neg hcc]
      have hstep : ∀ (n : FNode) (acc'' : List FNode), n ∈ ft →
          n.parentId = some tgt.id →
          ∃ out, insertNestedItems ft fuel n acc'' = some out := by
        intro n acc'' hn hpn
        obtain ⟨jn, hgn⟩ := List.mem_iff_get?.mp hn
        obtain ⟨i, m, hij, hgi, hid⟩ := hpe jn n tgt.id hgn hpn
        have : i = j := idx_unique hnd hgi hg hid
        subst this
        exact ih jn n acc'' hgn (by omega)
      have hscan : ∀ (l : List FNode) (acc' : List FNode),
          (∀ n ∈ l, n ∈ ft) →
          ∃ out, nestedScan (insertNestedItems ft fuel) tgt.id l acc' =
            some out := by
        intro l
        induction l with
        | nil => intro acc' _; exact ⟨acc', rfl⟩
        | cons n rest ihl =>
          intro acc' hmem
          simp only [nestedScan]
          by_cases hp : n.parentId = some tgt.id
          · rw [if_pos hp]
            obtain ⟨o1, ho1⟩ :=
              hstep n (acc' ++ [n]) (hmem n (List.mem_cons_self n rest)) hp
            rw [ho1]
            exact ihl o1 (fun x hx => hmem x (List.mem_cons_of_mem n hx))
          · rw [if_neg hp]
            exact ihl acc' (fun x hx => hmem x (List.mem_cons_of_mem n hx))
      exact hscan ft acc (fun n h => h)

theorem step_success (ft : List FNode) (hnd : (ft.map FNode.id).Nodup)
    (hpe : PE1 ft) (w : List (List Char)) :
    ∀ (n : FNode) (acc : List FNode), n ∈ ft →
      ∃ out, stepNode ft w n acc = some out := by
  intro n acc hn
  unfold stepNode
  by_cases h1 : n.value.isEmpty
  · simp [h1]
  · rw [if_neg h1]
    by_cases h2 : acc.any (fun m => m.id == n.id)
    · simp [h2]
    · rw [if_neg h2]
      by_cases h3 :
          isNodeMatched w (splitStringIntoWords (toLowerStr n.value))
      · rw [if_pos h3]
        obtain ⟨jn, hgn⟩ := List.mem_iff_get?.mp hn
        have hjn := (List.get?_eq_some.mp hgn).1
        rcases hp : n.parentId with _ | pid
        · exact ins_success ft hnd hpe (ft.length + 1) jn n (acc ++ [n]) hgn
            (by omega)
        · obtain ⟨out1, hout1⟩ := ipn_success ft hnd hpe (ft.length + 1)
            jn n acc pid hgn hp (by omega)
          rw [hout1]
          exact ⟨_, rfl⟩
      · rw [if_neg h3]
        exact ⟨acc, rfl⟩

theorem go_success (ft : List FNode) (hnd : (ft.map FNode.id).Nodup)
    (hpe : PE1 ft) (w : List (List Char)) :
    ∀ (l : List FNode) (acc : List FNode), (∀ n ∈ l, n ∈ ft) →
      ∃ out, searchGo ft w l acc = some out := by
  intro l
  induction l with
  | nil => intro acc _; exact ⟨acc, rfl⟩
  | cons n rest ih =>
    intro acc hmem
    simp only [searchGo]
    obtain ⟨o1, ho1⟩ :=
      step_success ft hnd hpe w n acc (hmem n (List.mem_cons_self n rest))
    rw [ho1]
    exact ih o1 (fun x hx => hmem x (List.mem_cons_of_mem n hx))

/-- C10: on a flat tree with pairwise-distinct ids in which every non-root
node's `parentId` resolves to a strictly earlier node, `searchTree` always
returns a result: the parent lookup of the upward walk always finds a node,
the `Parent node was not found` assertion never fires, and every walk
terminates (in the embedding, `none` covers the thrown exception and the
non-terminating walk alike, and is never produced). -/
theorem C10_searchTree_total (ft : List FNode) (q : List Char)
    (hnd : (ft.map FNode.id).Nodup) (hpe : parentEarlierB ft = true) :
    ∃ res, searchTree ft q = some res := by
  unfold searchTree
  by_cases hw : (splitStringIntoWords (toLowerStr q)).isEmpty
  · simp [hw]
  · simp only [hw, Bool.false_eq_true, if_false]
    exact go_success ft hnd (peB_to_PE1 hpe)
      (splitStringIntoWords (toLowerStr q)) ft [] (fun n h => h)

/-- Witness for C10 on the four-node flat tree of the C5 example. -/
theorem C10_witness :
    ∃ res, searchTree
      [⟨1, ['r'], none, 0, 2⟩, ⟨2, ['a'], some 1, 1, 1⟩,
        ⟨4, ['x'], some 2, 2, 0⟩, ⟨3, ['x'], some 1, 1, 0⟩] ['x'] =
      some res :=
  C10_searchTree_total
    [⟨1, ['r'], none, 0, 2⟩, ⟨2, ['a'], some 1, 1, 1⟩,
      ⟨4, ['x'], some 2, 2, 0⟩, ⟨3, ['x'], some 1, 1, 0⟩] ['x']
    (by decide) (by decide)

end HoneyUtils

namespace HoneyUtils

theorem ipn_delta (ft : List FNode) (hnd : (ft.map FNode.id).Nodup)
    (hpe : PE1 ft) :
    ∀ (fuel j : Nat) (tgt : FNode) (acc out : List FNode),
      ft.get? j = some tgt → insertParentNodes ft fuel tgt acc = some out →
      ∃ dl, out = acc ++ dl ∧ (dl.map FNode.id).Nodup ∧
        ∀ y ∈ dl, ∃ jy, jy < j ∧ ft.get? jy = some y := by
  intro fuel
  induction fuel with
  | zero => intro j tgt acc out _ h; cases h
  | succ fuel ih =>
    intro j tgt acc out hg h
    simp only [insertParentNodes] at h
    split at h
    · cases h
    · rename_i pid hp
      split at h
      · cases h
      · rename_i pIdx hmap
        split at h
        · cases h
        · rename_i parentNode hgp
          have hpid : parentNode.id = pid := by
            obtain ⟨m, hm, hmid⟩ := nodeIdToIndexMap_sound hmap
            rw [hgp] at hm
            cases hm
            exact hmid
          have hplt : pIdx < j := by
            obtain ⟨i, m', hij, hgi, hid'⟩ := hpe j tgt pid hg hp
            have : pIdx = i :=
              idx_unique hnd hgp hgi (by rw [hpid, hid'])
            omega
          split at h
          · rename_i pid' hpp
            split at h
            · cases h
            · rename_i acc1 hrec
              cases h
              obtain ⟨dl', hout1, hnd', hbound'⟩ :=
                ih pIdx parentNode acc acc1 hgp hrec
              subst hout1
              by_cases hsi : shouldInsertParent (acc ++ dl') tgt.parentId
              · refine ⟨dl' ++ [parentNode], ?_, ?_, ?_⟩
                · simp [hsi]
                · rw [List.map_append]
                  rw [List.nodup_append]
                  refine ⟨hnd', List.nodup_singleton _, ?_⟩
                  intro a ha hb
                  simp only [List.map_cons, List.map_nil,
                    List.mem_singleton] at hb
                  obtain ⟨y, hy, hyid⟩ := List.mem_map.mp ha
                  obtain ⟨jy, hjy, hgy⟩ := hbound' y hy
                  have : jy = pIdx :=
                    idx_unique hnd hgy hgp (by rw [hyid, hb])
                  omega
                · intro y hy
                  rcases List.mem_append.mp hy with hy' | hy'
                  · obtain ⟨jy, hjy, hgy⟩ := hbound' y hy'
                    exact ⟨jy, by omega, hgy⟩
                  · rw [List.mem_singleton] at hy'
                    subst hy'
                    exact ⟨pIdx, hplt, hgp⟩
              · refine ⟨dl', ?_, hnd', fun y hy => ?_⟩
                · simp [hsi]
                · obtain ⟨jy, hjy, hgy⟩ := hbound' y hy
                  exact ⟨jy, by omega, hgy⟩
          · cases h
            by_cases hsi : shouldInsertParent acc tgt.parentId
            · refine ⟨[parentNode], by simp [hsi], by simp, ?_⟩
              intro y hy
              rw [List.mem_singleton] at hy
              subst hy
              exact ⟨pIdx, hplt, hgp⟩
            · exact ⟨[], by simp [hsi], by simp, by simp⟩

/-- C5 as amended: a directly-scanned node whose id is already present in
the accumulated result is skipped (the reduce step returns the accumulator
unchanged); and under the flat-node invariant a *single* upward ancestor
walk never inserts the same node twice (the inserted block has
pairwise-distinct ids).  Across separate walks, however, an ancestor can be
re-inserted — the walk de-duplicates only against the immediately
previously inserted node — so the full result may contain duplicates (see
the counterexample). -/
theorem C5_skip_and_walk_dedup :
    (∀ (ft : List FNode) (w : List (List Char)) (n : FNode)
        (acc : List FNode),
      (acc.any fun m => m.id == n.id) = true → stepNode ft w n acc = some acc) ∧
    (∀ ft : List FNode, (ft.map FNode.id).Nodup → PE1 ft →
      ∀ (fuel j : Nat) (tgt : FNode) (acc out : List FNode),
        ft.get? j = some tgt →
        insertParentNodes ft fuel tgt acc = some out →
        ∃ dl, out = acc ++ dl ∧ (dl.map FNode.id).Nodup) := by
  constructor
  · intro ft w n acc hid
    unfold stepNode
    by_cases h1 : n.value.isEmpty
    · simp [h1]
    · simp [h1, hid]
  · intro ft hnd hpe fuel j tgt acc out hg h
    obtain ⟨dl, h1, h2, _⟩ := ipn_delta ft hnd hpe fuel j tgt acc out hg h
    exact ⟨dl, h1, h2⟩

/-- Witness for the amended C5: the skip-by-id branch on a one-node tree
whose node is already in the accumulator. -/
theorem C5_witness :
    stepNode [⟨1, ['r'], none, 0, 2⟩] [['r']] ⟨1, ['r'], none, 0, 2⟩
      [⟨1, ['r'], none, 0, 2⟩] = some [⟨1, ['r'], none, 0, 2⟩] :=
  C5_skip_and_walk_dedup.1 [⟨1, ['r'], none, 0, 2⟩] [['r']]
    ⟨1, ['r'], none, 0, 2⟩ [⟨1, ['r'], none, 0, 2⟩] (by decide)

end HoneyUtils

namespace HoneyUtils

theorem idsT_eq (t : HTree) : idsT t = t.idOf :: idsL t.childrenOf := by
  cases t <;> simp [idsT, idsL, HTree.idOf, HTree.childrenOf]

theorem idOf_mem_idsT (t : HTree) : t.idOf ∈ idsT t := by
  rw [idsT_eq]
  exact List.mem_cons_self _ _

theorem idsL_append (a b : List HTree) : idsL (a ++ b) = idsL a ++ idsL b := by
  induction a with
  | nil => simp [idsL]
  | cons t rest ih => simp [idsL, ih]

theorem idsL_of_mem {t : HTree} {ts : List HTree} (h : t ∈ ts) :
    ∀ x ∈ idsT t, x ∈ idsL ts := by
  induction ts with
  | nil => cases h
  | cons u rest ih =>
    intro x hx
    simp only [idsL, List.mem_append]
    rcases List.mem_cons.mp h with heq | hmem
    · exact Or.inl (heq ▸ hx)
    · exact Or.inr (ih hmem x hx)

theorem OccIn_id_mem {ts : List HTree} {q : Option Nat} {e : Nat} {s : HTree}
    {p : Option Nat} {d : Nat} (h : OccIn ts q e s p d) :
    s.idOf ∈ idsL ts := by
  induction h with
  | here ht => exact idsL_of_mem ht _ (idOf_mem_idsT _)
  | inside ht _ ih =>
    refine idsL_of_mem ht _ ?_
    rw [idsT_eq]
    exact List.mem_cons_of_mem _ ih

theorem OccIn_children_sub {ts : List HTree} {q : Option Nat} {e : Nat}
    {s : HTree} {p : Option Nat} {d : Nat} (h : OccIn ts q e s p d) :
    ∀ x ∈ idsL s.childrenOf, x ∈ idsL ts := by
  induction h with
  | here ht =>
    intro x hx
    refine idsL_of_mem ht _ ?_
    rw [idsT_eq]
    exact List.mem_cons_of_mem _ hx
  | inside ht _ ih =>
    intro x hx
    refine idsL_of_mem ht _ ?_
    rw [idsT_eq]
    exact List.mem_cons_of_mem _ (ih x hx)

theorem OccIn_child {ts : List HTree} {q : Option Nat} {e : Nat} {s : HTree}
    {p : Option Nat} {d : Nat} {c : HTree} (h : OccIn ts q e s p d)
    (hc : c ∈ s.childrenOf) : OccIn ts q e c (some s.idOf) (d + 1) := by
  induction h with
  | here ht => exact OccIn.inside ht (OccIn.here hc)
  | inside ht _ ih => exact OccIn.inside ht (ih hc)

theorem OccIn_mono {a ts' : List HTree} {q : Option Nat} {e : Nat} {s : HTree}
    {p : Option Nat} {d : Nat} (hsub : ∀ x ∈ a, x ∈ ts')
    (h : OccIn a q e s p d) : OccIn ts' q e s p d := by
  induction h with
  | here ht => exact OccIn.here (hsub _ ht)
  | inside ht hin _ => exact OccIn.inside (hsub _ ht) hin

theorem OccIn_append {a b : List HTree} {q : Option Nat} {e : Nat} {s : HTree}
    {p : Option Nat} {d : Nat} :
    OccIn (a ++ b) q e s p d ↔ OccIn a q e s p d ∨ OccIn b q e s p d := by
  constructor
  · intro h
    generalize hab : a ++ b = ab at h
    induction h with
    | here ht =>
      rcases List.mem_append.mp (hab ▸ ht) with h' | h'
      · exact Or.inl (OccIn.here h')
      · exact Or.inr (OccIn.here h')
    | inside ht hin _ =>
      rcases List.mem_append.mp (hab ▸ ht) with h' | h'
      · exact Or.inl (OccIn.inside h' hin)
      · exact Or.inr (OccIn.inside h' hin)
  · rintro (h | h)
    · exact OccIn_mono (fun x hx => List.mem_append_left _ hx) h
    · exact OccIn_mono (fun x hx => List.mem_append_right _ hx) h

theorem OccIn_parent_origin_aux {ts : List HTree} {q : Option Nat} {e : Nat}
    {s : HTree} {p : Option Nat} {d : Nat} (h : OccIn ts q e s p d) :
    ∀ j, p = some j → q = some j ∨ j ∈ idsL ts := by
  induction h with
  | here _ => exact fun j hj => Or.inl hj
  | inside ht hin ih =>
    intro j hj
    rcases ih j hj with h' | h'
    · right
      refine idsL_of_mem ht _ ?_
      rw [idsT_eq]
      exact List.mem_cons.mpr (Or.inl (Option.some.inj h').symm)
    · right
      refine idsL_of_mem ht _ ?_
      rw [idsT_eq]
      exact List.mem_cons_of_mem _ h'

theorem OccIn_parent_origin {ts : List HTree} {q : Option Nat} {e : Nat}
    {s : HTree} {j : Nat} {d : Nat} (h : OccIn ts q e s (some j) d) :
    q = some j ∨ j ∈ idsL ts :=
  OccIn_parent_origin_aux h j rfl

theorem ids_flatP_fuel :
    ∀ (n : Nat) (ts : List HTree) (q : Option Nat) (e : Nat),
      sizeL ts ≤ n → (flatP ts q e).map FNode.id = idsL ts := by
  intro n
  induction n with
  | zero =>
    intro ts q e h
    cases ts with
    | nil => simp [flatP_nil, idsL]
    | cons t rest =>
      exfalso
      have := sizeT_pos t
      simp [sizeL] at h
      omega
  | succ n ih =>
    intro ts q e h
    cases ts with
    | nil => simp [flatP_nil, idsL]
    | cons t rest =>
      have h1 := sizeT_pos t
      have hc : sizeL t.childrenOf ≤ n := by
        have := sizeT_eq t
        simp [sizeL] at h
        omega
      have hr : sizeL rest ≤ n := by
        simp [sizeL] at h
        omega
      rw [flatP_cons]
      simp only [List.map_cons, List.map_append, ih _ _ _ hc, ih _ _ _ hr,
        idsL, idsT_eq]
      rfl

theorem ids_flatP (ts : List HTree) (q : Option Nat) (e : Nat) :
    (flatP ts q e).map FNode.id = idsL ts :=
  ids_flatP_fuel (sizeL ts) ts q e le_rfl

theorem mem_flatP_fuel :
    ∀ (n : Nat) (ts : List HTree) (q : Option Nat) (e : Nat) (m : FNode),
      sizeL ts ≤ n → m ∈ flatP ts q e →
      ∃ s p d, OccIn ts q e s p d ∧ m = mkFlat s p d := by
  intro n
  induction n with
  | zero =>
    intro ts q e m h hm
    cases ts with
    | nil => rw [flatP_nil] at hm; cases hm
    | cons t rest =>
      exfalso
      have := sizeT_pos t
      simp [sizeL] at h
      omega
  | succ n ih =>
    intro ts q e m h hm
    cases ts with
    | nil => rw [flatP_nil] at hm; cases hm
    | cons t rest =>
      have h1 := sizeT_pos t
      have hc : sizeL t.childrenOf ≤ n := by
        have := sizeT_eq t
        simp [sizeL] at h
        omega
      have hr : sizeL rest ≤ n := by
        simp [sizeL] at h
        omega
      rw [flatP_cons] at hm
      rcases List.mem_cons.mp hm with heq | hm'
      · exact ⟨t, q, e, OccIn.here (List.mem_cons_self _ _), heq⟩
      · rcases List.mem_append.mp hm' with h2 | h2
        · obtain ⟨s, p, d, hocc, heq⟩ := ih t.childrenOf _ _ m hc h2
          exact ⟨s, p, d, OccIn.inside (List.mem_cons_self _ _) hocc, heq⟩
        · obtain ⟨s, p, d, hocc, heq⟩ := ih rest _ _ m hr h2
          exact ⟨s, p, d,
            OccIn_mono (fun x hx => List.mem_cons_of_mem _ hx) hocc, heq⟩

theorem mem_flatP {ts : List HTree} {q : Option Nat} {e : Nat} {m : FNode}
    (hm : m ∈ flatP ts q e) :
    ∃ s p d, OccIn ts q e s p d ∧ m = mkFlat s p d :=
  mem_flatP_fuel (sizeL ts) ts q e m le_rfl hm

end HoneyUtils

namespace HoneyUtils

theorem flatP_PE_split :
    ∀ (n : Nat) (ts : List HTree) (q : Option Nat) (e : Nat)
      (l1 : List FNode) (m : FNode) (l2 : List FNode) (pid : Nat),
      sizeL ts ≤ n → flatP ts q e = l1 ++ m :: l2 → m.parentId = some pid →
      pid ∈ l1.map FNode.id ∨ q = some pid := by
  intro n
  induction n with
  | zero =>
    intro ts q e l1 m l2 pid h heq hp
    cases ts with
    | nil =>
      rw [flatP_nil] at heq
      have := congrArg List.length heq
      simp at this
      omega
    | cons t rest =>
      exfalso
      have := sizeT_pos t
      simp [sizeL] at h
      omega
  | succ n ih =>
    intro ts q e l1 m l2 pid h heq hp
    cases ts with
    | nil =>
      rw [flatP_nil] at heq
      have := congrArg List.length heq
      simp at this
      omega
    | cons t rest =>
      have h1 := sizeT_pos t
      have hc : sizeL t.childrenOf ≤ n := by
        have := sizeT_eq t
        simp [sizeL] at h
        omega
      have hr : sizeL rest ≤ n := by
        simp [sizeL] at h
        omega
      rw [flatP_cons] at heq
      cases l1 with
      | nil =>
        simp only [List.nil_append, List.cons.injEq] at heq
        right
        have : m.parentId = q := by
          rw [← heq.1]
          rfl
        rw [← this, hp]
      | cons x l1' =>
        simp only [List.cons_append, List.cons.injEq] at heq
        obtain ⟨hx, heq2⟩ := heq
        rcases List.append_eq_append_iff.mp heq2 with
          ⟨a', ha1, ha2⟩ | ⟨c', hc1, hc2⟩
        · rcases ih rest q e a' m l2 pid hr ha2 hp with h' | h'
          · left
            obtain ⟨y, hy1, hy2⟩ := List.mem_map.mp h'
            refine List.mem_map.mpr ⟨y, List.mem_cons_of_mem x ?_, hy2⟩
            rw [ha1]
            exact List.mem_append_right _ hy1
          · exact Or.inr h'
        · cases c' with
          | nil =>
            simp only [List.nil_append] at hc2
            rcases ih rest q e [] m l2 pid hr (by rw [← hc2]; rfl) hp with h' | h'
            · simp at h'
            · exact Or.inr h'
          | cons y c'' =>
            simp only [List.cons_append, List.cons.injEq] at hc2
            obtain ⟨hym, hl2⟩ := hc2
            subst hym
            rcases ih t.childrenOf (some t.idOf) (e + 1) l1' m c'' pid hc
              hc1 hp with h' | h'
            · left
              obtain ⟨z, hz1, hz2⟩ := List.mem_map.mp h'
              exact List.mem_map.mpr ⟨z, List.mem_cons_of_mem x hz1, hz2⟩
            · left
              refine List.mem_map.mpr ⟨x, List.mem_cons_self _ _, ?_⟩
              rw [← hx]
              exact Option.some.inj h'

end HoneyUtils

namespace HoneyUtils

theorem flat_PE1 (f : List HTree) : PE1 (flatP f none 0) := by
  intro j n pid hg hp
  obtain ⟨hjlen, hget⟩ := List.get?_eq_some.mp hg
  have hsplit : flatP f none 0 =
      (flatP f none 0).take j ++ n :: (flatP f none 0).drop (j + 1) := by
    conv_lhs => rw [← List.take_append_drop j (flatP f none 0)]
    rw [List.drop_eq_get_cons hjlen, hget]
  rcases flatP_PE_split (sizeL f) f none 0 _ n _ pid le_rfl hsplit hp with
    h' | h'
  · obtain ⟨m, hm, hmid⟩ := List.mem_map.mp h'
    obtain ⟨i, hgi⟩ := List.mem_iff_get?.mp hm
    have hi : i < j := by
      have hlen := (List.get?_eq_some.mp hgi).1
      rw [List.length_take] at hlen
      omega
    refine ⟨i, m, hi, ?_, hmid⟩
    rw [← List.get?_take hi]
    exact hgi
  · cases h'

theorem nodup_parts {l1 : List HTree} {t : HTree} {l2 : List HTree}
    (h : (idsL (l1 ++ t :: l2)).Nodup) :
    (idsT t).Nodup ∧ (∀ x ∈ idsT t, x ∉ idsL l1) ∧
      (∀ x ∈ idsT t, x ∉ idsL l2) := by
  rw [idsL_append] at h
  have h2 : idsL (t :: l2) = idsT t ++ idsL l2 := by simp [idsL]
  rw [h2] at h
  rw [List.nodup_append] at h
  obtain ⟨hA, hB, hAB⟩ := h
  rw [List.nodup_append] at hB
  obtain ⟨hT, hL2, hTL2⟩ := hB
  refine ⟨hT, ?_, ?_⟩
  · intro x hx hx1
    exact hAB hx1 (List.mem_append_left _ hx)
  · intro x hx hx2
    exact hTL2 hx hx2

theorem filter_flatP_zero :
    ∀ (n : Nat) (ts : List HTree) (q : Option Nat) (e i : Nat),
      sizeL ts ≤ n → i ∉ idsL ts → q ≠ some i →
      (flatP ts q e).filter (fun m => decide (m.parentId = some i)) = [] := by
  intro n
  induction n with
  | zero =>
    intro ts q e i h hni hq
    cases ts with
    | nil => simp [flatP_nil]
    | cons t rest =>
      exfalso
      have := sizeT_pos t
      simp [sizeL] at h
      omega
  | succ n ih =>
    intro ts q e i h hni hq
    cases ts with
    | nil => simp [flatP_nil]
    | cons t rest =>
      have h1 := sizeT_pos t
      have hc : sizeL t.childrenOf ≤ n := by
        have := sizeT_eq t
        simp [sizeL] at h
        omega
      have hr : sizeL rest ≤ n := by
        simp [sizeL] at h
        omega
      have hni' : i ∉ idsT t ∧ i ∉ idsL rest := by
        simp only [idsL, List.mem_append] at hni
        exact ⟨fun hx => hni (Or.inl hx), fun hx => hni (Or.inr hx)⟩
      have hit : i ≠ t.idOf := by
        intro he
        exact hni'.1 (he ▸ idOf_mem_idsT t)
      have hich : i ∉ idsL t.childrenOf := by
        intro hx
        refine hni'.1 ?_
        rw [idsT_eq]
        exact List.mem_cons_of_mem _ hx
      rw [flatP_cons, List.filter_cons]
      have hhead : (mkFlat t q e).parentId = q := rfl
      rw [if_neg (by simp [hhead, hq])]
      rw [List.filter_append, ih _ _ _ _ hc hich (by simp [Ne, hit.symm]),
        ih _ _ _ _ hr hni'.2 hq]
      rfl

theorem filter_flatP_top :
    ∀ (cs : List HTree) (e i : Nat), i ∉ idsL cs →
      (flatP cs (some i) e).filter (fun m => decide (m.parentId = some i)) =
        cs.map (fun c => mkFlat c (some i) e) := by
  intro cs
  induction cs with
  | nil => intro e i _; simp [flatP_nil]
  | cons c cs' ih =>
    intro e i hni
    have hni' : i ∉ idsT c ∧ i ∉ idsL cs' := by
      simp only [idsL, List.mem_append] at hni
      exact ⟨fun hx => hni (Or.inl hx), fun hx => hni (Or.inr hx)⟩
    have hic : i ≠ c.idOf := by
      intro he
      exact hni'.1 (he ▸ idOf_mem_idsT c)
    have hich : i ∉ idsL c.childrenOf := by
      intro hx
      refine hni'.1 ?_
      rw [idsT_eq]
      exact List.mem_cons_of_mem _ hx
    rw [flatP_cons, List.filter_cons]
    have hhead : (mkFlat c (some i) e).parentId = some i := rfl
    rw [if_pos (by simp [hhead])]
    rw [List.filter_append,
      filter_flatP_zero (sizeL c.childrenOf) _ _ _ _ le_rfl hich
        (by simp [Ne, hic.symm]),
      ih e i hni'.2]
    rfl

theorem filter_flatP_main :
    ∀ {ts : List HTree} {q : Option Nat} {e : Nat} {s : HTree}
      {p : Option Nat} {d : Nat},
      OccIn ts q e s p d → (idsL ts).Nodup → q ≠ some s.idOf →
      (flatP ts q e).filter (fun m => decide (m.parentId = some s.idOf)) =
        s.childrenOf.map (fun c => mkFlat c (some s.idOf) (d + 1)) := by
  intro ts q e s p d hocc
  induction hocc with
  | here ht =>
    intro hnd hq
    rename_i ts' q' e' t'
    obtain ⟨l1, l2, rfl⟩ := List.append_of_mem ht
    obtain ⟨hT, hL1, hL2⟩ := nodup_parts hnd
    have hidT : t'.idOf ∈ idsT t' := idOf_mem_idsT t'
    have hnotch : t'.idOf ∉ idsL t'.childrenOf := by
      rw [idsT_eq] at hT
      exact (List.nodup_cons.mp hT).1
    rw [flatP_append, flatP_cons, List.filter_append, List.filter_cons]
    rw [filter_flatP_zero (sizeL l1) _ _ _ _ le_rfl
      (fun hx => hL1 _ hidT hx) hq]
    have hhead : (mkFlat t' q' e').parentId = q' := rfl
    rw [if_neg (by simp [hhead, hq])]
    rw [List.filter_append, filter_flatP_top _ _ _ hnotch]
    rw [filter_flatP_zero (sizeL l2) _ _ _ _ le_rfl
      (fun hx => hL2 _ hidT hx) hq]
    simp
  | inside ht hin ih =>
    intro hnd hq
    rename_i ts' q' e' t' s' p' d'
    obtain ⟨l1, l2, rfl⟩ := List.append_of_mem ht
    obtain ⟨hT, hL1, hL2⟩ := nodup_parts hnd
    have hsid : s'.idOf ∈ idsL t'.childrenOf := OccIn_id_mem hin
    have hsidT : s'.idOf ∈ idsT t' := by
      rw [idsT_eq]
      exact List.mem_cons_of_mem _ hsid
    have htne : t'.idOf ≠ s'.idOf := by
      rw [idsT_eq] at hT
      intro he
      exact (List.nodup_cons.mp hT).1 (he ▸ hsid)
    have hndch : (idsL t'.childrenOf).Nodup := by
      rw [idsT_eq] at hT
      exact (List.nodup_cons.mp hT).2
    rw [flatP_append, flatP_cons, List.filter_append, List.filter_cons]
    rw [filter_flatP_zero (sizeL l1) _ _ _ _ le_rfl
      (fun hx => hL1 _ hsidT hx) hq]
    have hhead : (mkFlat t' q' e').parentId = q' := rfl
    rw [if_neg (by simp [hhead, hq])]
    rw [List.filter_append, ih hndch (by simp [htne])]
    rw [filter_flatP_zero (sizeL l2) _ _ _ _ le_rfl
      (fun hx => hL2 _ hsidT hx) hq]
    simp

end HoneyUtils

namespace HoneyUtils

theorem childCountOf_eq_zero {s : HTree} :
    s.childCountOf = 0 ↔ s.childrenOf = [] := by
  cases s with
  | noArr i v => simp [HTree.childCountOf, HTree.childrenOf]
  | arr i v cs => simp [HTree.childCountOf, HTree.childrenOf,
      List.length_eq_zero]

theorem sizeT_le_of_mem {t : HTree} {ts : List HTree} (h : t ∈ ts) :
    sizeT t ≤ sizeL ts := by
  induction ts with
  | nil => cases h
  | cons u rest ih =>
    rcases List.mem_cons.mp h with heq | hmem
    · subst heq
      simp only [sizeL]
      omega
    · have h1 := ih hmem
      have h2 := sizeT_pos u
      simp only [sizeL]
      omega

theorem sizeT_child_lt {c s : HTree} (h : c ∈ s.childrenOf) :
    sizeT c < sizeT s := by
  have h1 := sizeT_le_of_mem h
  have h2 := sizeT_eq s
  omega

theorem nestedScan_eq (st : FNode → List FNode → Option (List FNode))
    (tid : Nat) :
    ∀ (l acc : List FNode),
      nestedScan st tid l acc =
        processHits st (l.filter fun m => decide (m.parentId = some tid))
          acc := by
  intro l
  induction l with
  | nil => intro acc; rfl
  | cons n rest ih =>
    intro acc
    by_cases hp : n.parentId = some tid
    · rcases hst : st n (acc ++ [n]) with _ | acc'
      · simp [nestedScan, processHits, hp, hst]
      · simp [nestedScan, processHits, hp, hst, ih]
    · simp [nestedScan, hp, ih]

theorem ins_block (f : List HTree) (hnd : (idsL f).Nodup) :
    ∀ (fuel : Nat) (s : HTree) (p : Option Nat) (d : Nat) (acc : List FNode),
      OccIn f none 0 s p d → sizeT s ≤ fuel →
      insertNestedItems (flatP f none 0) fuel (mkFlat s p d) acc =
        some (acc ++ flatP s.childrenOf (some s.idOf) (d + 1)) := by
  intro fuel
  induction fuel with
  | zero =>
    intro s p d acc _ hsz
    have := sizeT_pos s
    omega
  | succ fuel ih =>
    intro s p d acc hocc hsz
    simp only [insertNestedItems]
    have hcc : (mkFlat s p d).childCount = s.childCountOf := rfl
    by_cases hz : s.childCountOf = 0
    · rw [if_pos (hcc ▸ hz)]
      rw [childCountOf_eq_zero.mp hz, flatP_nil]
      simp
    · rw [if_neg (hcc ▸ hz)]
      rw [nestedScan_eq]
      have hid : (mkFlat s p d).id = s.idOf := rfl
      rw [hid]
      rw [filter_flatP_main hocc hnd (by simp)]
      have hsub : ∀ (cs : List HTree) (acc' : List FNode),
          (∀ c ∈ cs, c ∈ s.childrenOf) →
          processHits (insertNestedItems (flatP f none 0) fuel)
            (cs.map fun c => mkFlat c (some s.idOf) (d + 1)) acc' =
            some (acc' ++ flatP cs (some s.idOf) (d + 1)) := by
        intro cs
        induction cs with
        | nil => intro acc' _; simp [processHits, flatP_nil]
        | cons c cs' ihc =>
          intro acc' hmem
          have hoccc : OccIn f none 0 c (some s.idOf) (d + 1) :=
            OccIn_child hocc (hmem c (List.mem_cons_self _ _))
          have hszc : sizeT c ≤ fuel := by
            have := sizeT_child_lt (hmem c (List.mem_cons_self _ _))
            omega
          have h1 := ih c (some s.idOf) (d + 1)
            (acc' ++ [mkFlat c (some s.idOf) (d + 1)]) hoccc hszc
          have h2 := ihc
            (acc' ++ [mkFlat c (some s.idOf) (d + 1)] ++
              flatP c.childrenOf (some c.idOf) (d + 1 + 1))
            (fun x hx => hmem x (List.mem_cons_of_mem c hx))
          simp only [List.map_cons, processHits, h1, h2]
          rw [flatP_cons]
          simp
      exact hsub s.childrenOf acc (fun c h => h)

end HoneyUtils

namespace HoneyUtils

theorem ipn_append_only (ft : List FNode) :
    ∀ (fuel : Nat) (tgt : FNode) (acc out : List FNode),
      insertParentNodes ft fuel tgt acc = some out →
      ∃ tl, out = acc ++ tl := by
  intro fuel
  induction fuel with
  | zero => intro tgt acc out h; cases h
  | succ fuel ih =>
    intro tgt acc out h
    simp only [insertParentNodes] at h
    split at h
    · cases h
    · split at h
      · cases h
      · split at h
        · cases h
        · rename_i parentNode _
          split at h
          · split at h
            · cases h
            · rename_i acc1 hrec
              cases h
              obtain ⟨tl1, htl1⟩ := ih _ _ _ hrec
              subst htl1
              by_cases hsi : shouldInsertParent (acc ++ tl1) tgt.parentId
              · exact ⟨tl1 ++ [parentNode], by simp [hsi]⟩
              · exact ⟨tl1, by simp [hsi]⟩
          · cases h
            by_cases hsi : shouldInsertParent acc tgt.parentId
            · exact ⟨[parentNode], by simp [hsi]⟩
            · exact ⟨[], by simp [hsi]⟩

theorem ins_append_only (ft : List FNode) :
    ∀ (fuel : Nat) (tgt : FNode) (acc out : List FNode),
      insertNestedItems ft fuel tgt acc = some out →
      ∃ tl, out = acc ++ tl := by
  intro fuel
  induction fuel with
  | zero => intro tgt acc out h; cases h
  | succ fuel ih =>
    intro tgt acc out h
    simp only [insertNestedItems] at h
    split at h
    · cases h
      exact ⟨[], by simp⟩
    · have hscan : ∀ (l acc' out' : List FNode),
          nestedScan (insertNestedItems ft fuel) tgt.id l acc' = some out' →
          ∃ tl, out' = acc' ++ tl := by
        intro l
        induction l with
        | nil =>
          intro acc' out' h'
          cases h'
          exact ⟨[], by simp⟩
        | cons n rest ihl =>
          intro acc' out' h'
          simp only [nestedScan] at h'
          split at h'
          · split at h'
            · cases h'
            · rename_i acc1 hrec
              obtain ⟨tl1, htl1⟩ := ih _ _ _ hrec
              obtain ⟨tl2, htl2⟩ := ihl _ _ h'
              exact ⟨[n] ++ tl1 ++ tl2, by simp [htl2, htl1]⟩
          · obtain ⟨tl2, htl2⟩ := ihl _ _ h'
            exact ⟨tl2, htl2⟩
      exact hscan ft acc out h

theorem step_append_only (ft : List FNode) (w : List (List Char))
    (n : FNode) (acc out : List FNode) (h : stepNode ft w n acc = some out) :
    ∃ tl, out = acc ++ tl := by
  simp only [stepNode] at h
  split at h
  · cases h
    exact ⟨[], by simp⟩
  · split at h
    · cases h
      exact ⟨[], by simp⟩
    · split at h
      · split at h
        · obtain ⟨tl, htl⟩ := ins_append_only ft _ _ _ _ h
          exact ⟨[n] ++ tl, by simp [htl]⟩
        · split at h
          · cases h
          · rename_i acc1 hrec
            cases h
            obtain ⟨tl, htl⟩ := ipn_append_only ft _ _ _ _ hrec
            exact ⟨tl ++ [n], by simp [htl]⟩
      · cases h
        exact ⟨[], by simp⟩

theorem go_append_only (ft : List FNode) (w : List (List Char)) :
    ∀ (l acc out : List FNode), searchGo ft w l acc = some out →
      ∃ tl, out = acc ++ tl := by
  intro l
  induction l with
  | nil =>
    intro acc out h
    cases h
    exact ⟨[], by simp⟩
  | cons n rest ih =>
    intro acc out h
    simp only [searchGo] at h
    split at h
    · cases h
    · rename_i acc1 hstep
      obtain ⟨tl1, htl1⟩ := step_append_only ft w n acc acc1 hstep
      obtain ⟨tl2, htl2⟩ := ih _ _ h
      exact ⟨tl1 ++ tl2, by simp [htl2, htl1]⟩

theorem searchGo_append (ft : List FNode) (w : List (List Char)) :
    ∀ (a b acc : List FNode),
      searchGo ft w (a ++ b) acc =
        match searchGo ft w a acc with
        | none => none
        | some acc1 => searchGo ft w b acc1 := by
  intro a
  induction a with
  | nil => intro b acc; rfl
  | cons n rest ih =>
    intro b acc
    simp only [List.cons_append, searchGo]
    rcases hstep : stepNode ft w n acc with _ | acc'
    · rfl
    · exact ih b acc'

end HoneyUtils

namespace HoneyUtils

theorem ipn_ids_in (ft : List FNode) (P : Nat → Prop)
    (hup : ∀ m ∈ ft, P m.id → ∀ pid, m.parentId = some pid → P pid) :
    ∀ (fuel : Nat) (tgt : FNode) (acc out : List FNode),
      tgt ∈ ft → P tgt.id →
      insertParentNodes ft fuel tgt acc = some out →
      ∀ y ∈ out, y ∈ acc ∨ P y.id := by
  intro fuel
  induction fuel with
  | zero => intro tgt acc out _ _ h; cases h
  | succ fuel ih =>
    intro tgt acc out htgt hP h
    simp only [insertParentNodes] at h
    split at h
    · cases h
    · rename_i pid hp
      have hPpid : P pid := hup tgt htgt hP pid hp
      split at h
      · cases h
      · rename_i pIdx hmap
        split at h
        · cases h
        · rename_i parentNode hgp
          have hpn : parentNode ∈ ft := List.get?_mem hgp
          have hPpn : P parentNode.id := by
            obtain ⟨m', hm', hmid'⟩ := nodeIdToIndexMap_sound hmap
            rw [hgp] at hm'
            cases hm'
            exact hmid' ▸ hPpid
          split at h
          · split at h
            · cases h
            · rename_i acc1 hrec
              cases h
              intro y hy
              by_cases hsi : shouldInsertParent acc1 tgt.parentId
              · rw [if_pos hsi] at hy
                rcases List.mem_append.mp hy with hy' | hy'
                · exact ih parentNode acc acc1 hpn hPpn hrec y hy'
                · rw [List.mem_singleton] at hy'
                  exact Or.inr (hy' ▸ hPpn)
              · rw [if_neg hsi] at hy
                exact ih parentNode acc acc1 hpn hPpn hrec y hy
          · cases h
            intro y hy
            by_cases hsi : shouldInsertParent acc tgt.parentId
            · rw [if_pos hsi] at hy
              rcases List.mem_append.mp hy with hy' | hy'
              · exact Or.inl hy'
              · rw [List.mem_singleton] at hy'
                exact Or.inr (hy' ▸ hPpn)
            · rw [if_neg hsi] at hy
              exact Or.inl hy

theorem ins_ids_in (ft : List FNode) (P : Nat → Prop)
    (hdown : ∀ m ∈ ft, ∀ pid, m.parentId = some pid → P pid → P m.id) :
    ∀ (fuel : Nat) (tgt : FNode) (acc out : List FNode),
      P tgt.id → insertNestedItems ft fuel tgt acc = some out →
      ∀ y ∈ out, y ∈ acc ∨ P y.id := by
  intro fuel
  induction fuel with
  | zero => intro tgt acc out _ h; cases h
  | succ fuel ih =>
    intro tgt acc out hP h
    simp only [insertNestedItems] at h
    split at h
    · cases h
      exact fun y hy => Or.inl hy
    · have hscan : ∀ (l acc' out' : List FNode), (∀ x ∈ l, x ∈ ft) →
          nestedScan (insertNestedItems ft fuel) tgt.id l acc' = some out' →
          ∀ y ∈ out', y ∈ acc' ∨ P y.id := by
        intro l
        induction l with
        | nil =>
          intro acc' out' _ h'
          cases h'
          exact fun y hy => Or.inl hy
        | cons n rest ihl =>
          intro acc' out' hmem h'
          simp only [nestedScan] at h'
          split at h'
          · rename_i hpn
            split at h'
            · cases h'
            · rename_i acc1 hrec
              have hPn : P n.id :=
                hdown n (hmem n (List.mem_cons_self n rest)) tgt.id hpn hP
              intro y hy
              rcases ihl acc1 out'
                (fun x hx => hmem x (List.mem_cons_of_mem n hx)) h' y hy with
                hy' | hy'
              · rcases ih n (acc' ++ [n]) acc1 hPn hrec y hy' with hy'' | hy''
                · rcases List.mem_append.mp hy'' with hy3 | hy3
                  · exact Or.inl hy3
                  · rw [List.mem_singleton] at hy3
                    exact Or.inr (hy3 ▸ hPn)
                · exact Or.inr hy''
              · exact Or.inr hy'
          · intro y hy
            exact ihl acc' out'
              (fun x hx => hmem x (List.mem_cons_of_mem n hx)) h' y hy
      exact hscan ft acc out (fun x hx => hx) h

theorem step_ids_in (ft : List FNode) (w : List (List Char)) (P : Nat → Prop)
    (hup : ∀ m ∈ ft, P m.id → ∀ pid, m.parentId = some pid → P pid)
    (hdown : ∀ m ∈ ft, ∀ pid, m.parentId = some pid → P pid → P m.id)
    (n : FNode) (acc out : List FNode) (hn : n ∈ ft) (hPn : P n.id)
    (h : stepNode ft w n acc = some out) :
    ∀ y ∈ out, y ∈ acc ∨ P y.id := by
  simp only [stepNode] at h
  split at h
  · cases h
    exact fun y hy => Or.inl hy
  · split at h
    · cases h
      exact fun y hy => Or.inl hy
    · split at h
      · split at h
        · intro y hy
          rcases ins_ids_in ft P hdown (ft.length + 1) n (acc ++ [n]) out
              hPn h y hy with hy' | hy'
          · rcases List.mem_append.mp hy' with hy'' | hy''
            · exact Or.inl hy''
            · rw [List.mem_singleton] at hy''
              exact Or.inr (hy'' ▸ hPn)
          · exact Or.inr hy'
        · split at h
          · cases h
          · rename_i acc1 hrec
            cases h
            intro y hy
            rcases List.mem_append.mp hy with hy' | hy'
            · exact ipn_ids_in ft P hup (ft.length + 1) n acc acc1 hn hPn
                hrec y hy'
            · rw [List.mem_singleton] at hy'
              exact Or.inr (hy' ▸ hPn)
      · cases h
        exact fun y hy => Or.inl hy

theorem go_ids_in (ft : List FNode) (w : List (List Char)) (P : Nat → Prop)
    (hup : ∀ m ∈ ft, P m.id → ∀ pid, m.parentId = some pid → P pid)
    (hdown : ∀ m ∈ ft, ∀ pid, m.parentId = some pid → P pid → P m.id) :
    ∀ (l acc out : List FNode), (∀ x ∈ l, x ∈ ft ∧ P x.id) →
      (∀ y ∈ acc, P y.id) → searchGo ft w l acc = some out →
      ∀ y ∈ out, P y.id := by
  intro l
  induction l with
  | nil =>
    intro acc out _ hacc h
    cases h
    exact hacc
  | cons n rest ih =>
    intro acc out hmem hacc h
    simp only [searchGo] at h
    split at h
    · cases h
    · rename_i acc1 hstep
      refine ih acc1 out (fun x hx => hmem x (List.mem_cons_of_mem n hx))
        ?_ h
      intro y hy
      rcases step_ids_in ft w P hup hdown n acc acc1
          (hmem n (List.mem_cons_self n rest)).1
          (hmem n (List.mem_cons_self n rest)).2 hstep y hy with hy' | hy'
      · exact hacc y hy'
      · exact hy'

end HoneyUtils

namespace HoneyUtils

theorem flat_part_up {l1 r : List HTree} (hnd : (idsL (l1 ++ r)).Nodup) :
    ∀ m ∈ flatP (l1 ++ r) none 0, m.id ∈ idsL l1 →
      ∀ pid, m.parentId = some pid → pid ∈ idsL l1 := by
  have hdisj : List.Disjoint (idsL l1) (idsL r) := by
    rw [idsL_append] at hnd
    exact (List.nodup_append.mp hnd).2.2
  intro m hmem hid pid hp
  obtain ⟨s, p, d, hocc, rfl⟩ := mem_flatP hmem
  have hp' : p = some pid := hp
  subst hp'
  rcases OccIn_append.mp hocc with hocc1 | hocc2
  · rcases OccIn_parent_origin hocc1 with h' | h'
    · cases h'
    · exact h'
  · exact absurd (OccIn_id_mem hocc2) (fun hx => hdisj hid hx)

theorem flat_part_down {l1 r : List HTree} (hnd : (idsL (l1 ++ r)).Nodup) :
    ∀ m ∈ flatP (l1 ++ r) none 0, ∀ pid, m.parentId = some pid →
      pid ∈ idsL l1 → m.id ∈ idsL l1 := by
  have hdisj : List.Disjoint (idsL l1) (idsL r) := by
    rw [idsL_append] at hnd
    exact (List.nodup_append.mp hnd).2.2
  intro m hmem pid hp hpid
  obtain ⟨s, p, d, hocc, rfl⟩ := mem_flatP hmem
  have hp' : p = some pid := hp
  subst hp'
  rcases OccIn_append.mp hocc with hocc1 | hocc2
  · exact OccIn_id_mem hocc1
  · exfalso
    rcases OccIn_parent_origin hocc2 with h' | h'
    · cases h'
    · exact hdisj hpid h'

theorem value_ne_of_matched {w : List (List Char)} (hw : w ≠ [])
    {v : List Char}
    (hm : isNodeMatched w (splitStringIntoWords (toLowerStr v)) = true) :
    v.isEmpty = false := by
  cases v with
  | cons c cs => rfl
  | nil =>
    exfalso
    cases w with
    | nil => exact hw rfl
    | cons sw w' =>
      have hempty : splitStringIntoWords (toLowerStr []) = [] := rfl
      rw [hempty] at hm
      simp [isNodeMatched] at hm

/-- C6: on the flat tree produced by `flattenTree` from a hierarchy with
pairwise-distinct ids, if a root node (a top-level tree `t`) directly
matches the (non-empty) query, then `searchTree` returns a result that
contains the root's flat node immediately followed by its entire descendant
subtree in flat (preorder) order — as a contiguous block, whether or not
the descendants individually match. -/
theorem C6_root_match_subtree (f : List HTree) (t : HTree) (q : List Char)
    (hnd : (idsL f).Nodup) (ht : t ∈ f)
    (hw : splitStringIntoWords (toLowerStr q) ≠ [])
    (hm : isNodeMatched (splitStringIntoWords (toLowerStr q))
      (splitStringIntoWords (toLowerStr t.valueOf)) = true) :
    ∃ res, searchTree (flattenTree (some f)) q = some res ∧
      (mkFlat t none 0 :: flatP t.childrenOf (some t.idOf) 1) <:+: res := by
  obtain ⟨l1, l2, rfl⟩ := List.append_of_mem ht
  have hftids : (flatP (l1 ++ t :: l2) none 0).map FNode.id =
      idsL (l1 ++ t :: l2) := ids_flatP _ _ _
  have hftnd : ((flatP (l1 ++ t :: l2) none 0).map FNode.id).Nodup := by
    rw [hftids]
    exact hnd
  have hpe := flat_PE1 (l1 ++ t :: l2)
  have hdecomp : flatP (l1 ++ t :: l2) none 0 =
      flatP l1 none 0 ++ (mkFlat t none 0 ::
        (flatP t.childrenOf (some t.idOf) 1 ++ flatP l2 none 0)) := by
    rw [flatP_append, flatP_cons]
  have hdisj : List.Disjoint (idsL l1) (idsL (t :: l2)) := by
    have h' := hnd
    rw [idsL_append] at h'
    exact (List.nodup_append.mp h').2.2
  -- phase 1: scanning the flat nodes of the trees before t
  obtain ⟨acc1, hacc1⟩ := go_success (flatP (l1 ++ t :: l2) none 0) hftnd hpe
    (splitStringIntoWords (toLowerStr q)) (flatP l1 none 0) []
    (fun n hn => by rw [hdecomp]; exact List.mem_append_left _ hn)
  have hacc1ids : ∀ y ∈ acc1, y.id ∈ idsL l1 := by
    refine go_ids_in (flatP (l1 ++ t :: l2) none 0)
      (splitStringIntoWords (toLowerStr q)) (fun x => x ∈ idsL l1)
      (flat_part_up hnd) (flat_part_down hnd) (flatP l1 none 0) [] acc1
      ?_ (by simp) hacc1
    intro x hx
    refine ⟨by rw [hdecomp]; exact List.mem_append_left _ hx, ?_⟩
    have : x.id ∈ (flatP l1 none 0).map FNode.id :=
      List.mem_map_of_mem FNode.id hx
    rwa [ids_flatP] at this
  -- the root step
  have hval : (mkFlat t none 0).value.isEmpty = false :=
    value_ne_of_matched hw hm
  have hskip : (acc1.any fun m => m.id == (mkFlat t none 0).id) = false := by
    by_contra hx
    rw [Bool.not_eq_false] at hx
    obtain ⟨m, hmem', hbeq⟩ := List.any_eq_true.mp hx
    have h1 : m.id ∈ idsL l1 := hacc1ids m hmem'
    have h2 : m.id ∈ idsL (t :: l2) := by
      have : m.id = t.idOf := by simpa using hbeq
      rw [this]
      simp only [idsL]
      exact List.mem_append_left _ (idOf_mem_idsT t)
    exact hdisj h1 h2
  have hocct : OccIn (l1 ++ t :: l2) none 0 t none 0 :=
    OccIn.here (List.mem_append_right _ (List.mem_cons_self _ _))
  have hfuel : sizeT t ≤ (flatP (l1 ++ t :: l2) none 0).length + 1 := by
    rw [flatP_length]
    have := sizeT_le_of_mem (List.mem_append_right l1 (List.mem_cons_self t l2))
    omega
  have hins := ins_block (l1 ++ t :: l2) hnd
    ((flatP (l1 ++ t :: l2) none 0).length + 1) t none 0
    (acc1 ++ [mkFlat t none 0]) hocct hfuel
  have hstept : stepNode (flatP (l1 ++ t :: l2) none 0)
      (splitStringIntoWords (toLowerStr q)) (mkFlat t none 0) acc1 =
      some (acc1 ++ [mkFlat t none 0] ++
        flatP t.childrenOf (some t.idOf) (0 + 1)) := by
    have hmval : isNodeMatched (splitStringIntoWords (toLowerStr q))
        (splitStringIntoWords (toLowerStr (mkFlat t none 0).value)) = true :=
      hm
    simp only [stepNode, hval, Bool.false_eq_true, if_false, hskip]
    rw [if_pos hmval]
    have hpid : (mkFlat t none 0).parentId = none := rfl
    simp only [hpid]
    rw [hins]
  -- the rest of the scan
  obtain ⟨res, hres⟩ := go_success (flatP (l1 ++ t :: l2) none 0) hftnd hpe
    (splitStringIntoWords (toLowerStr q))
    (flatP t.childrenOf (some t.idOf) 1 ++ flatP l2 none 0)
    (acc1 ++ [mkFlat t none 0] ++ flatP t.childrenOf (some t.idOf) (0 + 1))
    (fun n hn => by
      rw [hdecomp]
      exact List.mem_append_right _ (List.mem_cons_of_mem _ hn))
  obtain ⟨tl, htl⟩ := go_append_only (flatP (l1 ++ t :: l2) none 0)
    (splitStringIntoWords (toLowerStr q)) _ _ _ hres
  refine ⟨res, ?_, ?_⟩
  · rw [flattenTree_some]
    unfold searchTree
    have hwe : (splitStringIntoWords (toLowerStr q)).isEmpty = false := by
      cases hcase : splitStringIntoWords (toLowerStr q) with
      | nil => exact absurd hcase hw
      | cons a as => rfl
    rw [if_neg (by simp [hwe])]
    rw [hdecomp] at hacc1 hstept hres ⊢
    rw [searchGo_append, hacc1]
    simp only [searchGo, hstept]
    exact hres
  · refine ⟨acc1, tl, ?_⟩
    rw [htl]
    simp
end HoneyUtils

namespace HoneyUtils

/-- Witness for C6: the root `1[r]` of the forest `[1[r] → 2[a], 3[b]]`
matches the query `"r"`, and the result contains its flat node followed by
its whole subtree. -/
theorem C6_witness :
    ∃ res, searchTree (flattenTree
        (some [HTree.arr 1 ['r'] [HTree.noArr 2 ['a']],
          HTree.noArr 3 ['b']])) ['r'] = some res ∧
      (mkFlat (HTree.arr 1 ['r'] [HTree.noArr 2 ['a']]) none 0 ::
        flatP (HTree.arr 1 ['r'] [HTree.noArr 2 ['a']]).childrenOf
          (some (HTree.arr 1 ['r'] [HTree.noArr 2 ['a']]).idOf) 1) <:+:
        res :=
  C6_root_match_subtree
    [HTree.arr 1 ['r'] [HTree.noArr 2 ['a']], HTree.noArr 3 ['b']]
    (HTree.arr 1 ['r'] [HTree.noArr 2 ['a']]) ['r']
    (by simp [idsL, idsT]) (List.mem_cons_self _ _) (by decide) (by decide)

end HoneyUtils
